import Mathlib

/-!
Verification development for the RenderSim scheduling core
(`src/Scheduler/cpp`).  The C++ pipeline is shallowly embedded:

* machine `int32_t`/`int64_t` values are modelled as unbounded `Int`
  (the scheduling claims are about values far below the overflow range);
* `double` arithmetic is modelled exactly over `ℚ`; the one transcendental
  call (`std::log10` in `AnalyticalOperatorOptimizer::optimize`) is kept
  as an explicit function parameter `lg : ℚ → ℚ`;
* a C++ attribute string is observed by the optimizers only through
  `std::stod`, `std::stoi` and a lowercased comparison against boolean
  literals, so attribute values are modelled by the record of those three
  observations (`AttrVal`);
* `std::unordered_map` contents are modelled as association lists / total
  functions; where the C++ iteration order of an `unordered_map` can
  influence a result, the embedding fixes one order and the theorems
  quantify over the data so that every order is an instance.
-/

namespace RenderSim

/-- What the optimizers can observe of one C++ attribute string:
`asD` is the result of `std::stod` (`none` when it throws), `asI` the
result of `std::stoi`, and `lower` the string lowercased (used by the
`get_bool` helper in `AnalyticalOperatorOptimizer::optimize`). -/
structure AttrVal where
  asD : Option ℚ
  asI : Option ℤ
  lower : String
deriving DecidableEq, Repr

/-- Attribute map `std::unordered_map<std::string, std::string>`,
keyed lookup only. -/
abbrev AttrMap := String → Option AttrVal

/-- An attribute holding the decimal rendering of an integer
(`std::to_string`): both `stod` and `stoi` recover the value. -/
def intAttr (n : ℤ) : AttrVal :=
  { asD := some (n : ℚ), asI := some n, lower := toString n }

/-- An attribute holding a plain fractional literal: `stod` parses it,
`stoi` parses the integral part. -/
def ratAttr (q : ℚ) : AttrVal :=
  { asD := some q, asI := some ⌊q⌋, lower := "" }

/-- Build an `AttrMap` from an association list (unique keys). -/
def attrsOfList (l : List (String × AttrVal)) : AttrMap :=
  fun k => (l.find? (fun p => p.1 == k)).map (fun p => p.2)

/-- The empty attribute map. -/
def noAttrs : AttrMap := fun _ => none

/-- Point update of an attribute map (`operator[]=` on the C++ map). -/
def setAttr (m : AttrMap) (k : String) (v : AttrVal) : AttrMap :=
  fun k' => if k' = k then some v else m k'

/-- `enum class OptimizationType` (optimization_library.hpp). -/
inductive OptimizationType
  | REUSE
  | SKIP
  | LOW_BIT
deriving DecidableEq, Repr

/-- `enum class OptimizationScope` (optimization_library.hpp). -/
inductive OptimizationScope
  | ELEMENT_LEVEL
  | REGION_LEVEL
  | FRAME_LEVEL
deriving DecidableEq, Repr

/-- `enum class DecisionCriteria` (optimization_library.hpp). -/
inductive DecisionCriteria
  | BOUNDARY_BASED
  | THRESHOLD_BASED
deriving DecidableEq, Repr

/-- `OptimizationStrategy` value: name, type, scope, criteria and the
applicable-operator list.  The parameter bag is never read by either
optimizer and is omitted. -/
structure OptimizationStrategy where
  name : String
  opt_type : OptimizationType
  scope : OptimizationScope
  criteria : DecisionCriteria
  applicable_operators : List String
deriving DecidableEq, Repr

/-- `OptimizationStrategy::isApplicableTo` (optimization_library.cpp:29). -/
def OptimizationStrategy.isApplicableTo (s : OptimizationStrategy) (ty : String) : Bool :=
  s.applicable_operators.contains ty || s.applicable_operators.contains "*"

/-- `OptimizationLibrary`: the contents of the `strategies_` map, listed in
one iteration order.  All results proved about it are order-insensitive
(products and filters over the list). -/
abbrev OptimizationLibrary := List OptimizationStrategy

/-- `OptimizationLibrary::getApplicableStrategies` (optimization_library.cpp:44). -/
def getApplicableStrategies (lib : OptimizationLibrary) (ty : String) :
    List OptimizationStrategy :=
  lib.filter (fun s => s.isApplicableTo ty)

/-- The seven built-in strategies registered by
`OptimizationLibrary::registerBuiltinStrategies` (optimization_library.cpp:79). -/
def builtinLibrary : OptimizationLibrary :=
  [ { name := "exponential_value_reuse", opt_type := .REUSE,
      scope := .ELEMENT_LEVEL, criteria := .THRESHOLD_BASED,
      applicable_operators := ["GAUSSIAN_SPLATTING", "FIELD_COMPUTATION"] },
    { name := "restricted_hashing", opt_type := .REUSE,
      scope := .REGION_LEVEL, criteria := .BOUNDARY_BASED,
      applicable_operators := ["HASH_ENCODE"] },
    { name := "sparse_radiance_warping", opt_type := .REUSE,
      scope := .FRAME_LEVEL, criteria := .THRESHOLD_BASED,
      applicable_operators := ["VOLUME_RENDERING", "*"] },
    { name := "gaussian_skipping", opt_type := .SKIP,
      scope := .ELEMENT_LEVEL, criteria := .THRESHOLD_BASED,
      applicable_operators := ["GAUSSIAN_SPLATTING"] },
    { name := "early_ray_termination", opt_type := .SKIP,
      scope := .ELEMENT_LEVEL, criteria := .THRESHOLD_BASED,
      applicable_operators := ["VOLUME_RENDERING"] },
    { name := "tile_culling", opt_type := .SKIP,
      scope := .REGION_LEVEL, criteria := .BOUNDARY_BASED,
      applicable_operators := ["GAUSSIAN_SPLATTING", "RASTERIZATION"] },
    { name := "low_precision_sampling", opt_type := .LOW_BIT,
      scope := .ELEMENT_LEVEL, criteria := .THRESHOLD_BASED,
      applicable_operators := ["SAMPLING"] } ]

/-- `OptimizationResult` (optimization_library.hpp:85). -/
structure OptimizationResult where
  duration : ℤ
  applied_optimizations : List String
  speedup_factor : ℚ
  base_duration : ℤ
  total_strategies_considered : ℕ
deriving DecidableEq, Repr

/-- `static_cast<int32_t>` of a real value: truncation toward zero. -/
def ratTrunc (q : ℚ) : ℤ := if 0 ≤ q then ⌊q⌋ else ⌈q⌉

/-- `std::round`: round half away from zero. -/
def ratRound (q : ℚ) : ℤ := if 0 ≤ q then ⌊q + 1/2⌋ else ⌈q - 1/2⌉

/-- The elements-per-cycle table of `DummyOperatorOptimizer::optimize`
(optimization_library.cpp:226). -/
def dummyElemsPerCycle (ty : String) : ℚ :=
  if ty = "FIELD_COMPUTATION" then 256
  else if ty = "HASH_ENCODE" ∨ ty = "ENCODING" then 64
  else if ty = "SAMPLING" then 64
  else if ty = "VOLUME_RENDERING" ∨ ty = "BLENDING" then 64
  else 1

/-- The bytes-per-cycle table of `DummyOperatorOptimizer::optimize`
(optimization_library.cpp:270). -/
def dummyBytesPerCycle (ty : String) : ℚ :=
  if ty = "FIELD_COMPUTATION" then 64
  else if ty = "HASH_ENCODE" ∨ ty = "ENCODING" then 32
  else if ty = "SAMPLING" then 32
  else if ty = "VOLUME_RENDERING" ∨ ty = "BLENDING" then 32
  else 16

/-- The `work` value of `DummyOperatorOptimizer::optimize`
(optimization_library.cpp:233-246): the parsed `work_elems`, biased up to
`flops/32` when a parseable `flop_count` attr is present. -/
def dummyWork (attrs : AttrMap) : ℚ :=
  let work0 : ℚ :=
    match attrs "work_elems" with
    | some v => v.asD.getD 0
    | none => 0
  match attrs "flop_count" with
  | some v =>
    match v.asD with
    | some flops => max work0 (flops / 32)
    | none => work0
  | none => work0

/-- `workload_cycles` (optimization_library.cpp:248-251). -/
def dummyWorkloadCycles (ty : String) (attrs : AttrMap) : ℤ :=
  if 0 < dummyWork attrs ∧ 0 < dummyElemsPerCycle ty then
    ⌈dummyWork attrs / dummyElemsPerCycle ty⌉
  else 0

/-- `speedup_factor` (optimization_library.cpp:254-263): ×0.8 for every
applicable SKIP or REUSE strategy. -/
def dummySpeedupFactor (lib : OptimizationLibrary) (ty : String) : ℚ :=
  (getApplicableStrategies lib ty).foldl
    (fun sf s => if s.opt_type = .SKIP ∨ s.opt_type = .REUSE then sf * (4/5) else sf) 1

/-- `compute_cycles` (optimization_library.cpp:266-267); the hardcoded
`base_duration` is 0. -/
def dummyComputeCycles (lib : OptimizationLibrary) (ty : String) (attrs : AttrMap) : ℤ :=
  ratTrunc (max 1 ((((0 : ℤ) + dummyWorkloadCycles ty attrs : ℤ) : ℚ) *
    dummySpeedupFactor lib ty))

/-- The parsed `bytes` attr (optimization_library.cpp:276-280). -/
def dummyBytes (attrs : AttrMap) : ℚ :=
  match attrs "bytes" with
  | some v => v.asD.getD 0
  | none => 0

/-- `mem_cycles` (optimization_library.cpp:281-284). -/
def dummyMemCycles (ty : String) (attrs : AttrMap) : ℤ :=
  if 0 < dummyBytes attrs ∧ 0 < dummyBytesPerCycle ty then
    ⌈dummyBytes attrs / dummyBytesPerCycle ty⌉
  else 0

/-- `DummyOperatorOptimizer::optimize` (optimization_library.cpp:216-295). -/
def dummyOptimize (lib : OptimizationLibrary) (ty : String) (attrs : AttrMap) :
    OptimizationResult :=
  let applicable := getApplicableStrategies lib ty
  { duration := max (dummyComputeCycles lib ty attrs) (dummyMemCycles ty attrs),
    applied_optimizations :=
      (applicable.filter (fun s => s.opt_type = .SKIP ∨ s.opt_type = .REUSE)).map
        (fun s => s.name),
    speedup_factor := dummySpeedupFactor lib ty,
    base_duration := 0,
    total_strategies_considered := applicable.length }

/-- The per-op-type base-cost table of `AnalyticalOperatorOptimizer`
(optimization_library.cpp:304-312); unknown types cost 800. -/
def analyticalBaseCost (ty : String) : ℤ :=
  if ty = "HASH_ENCODE" then 400
  else if ty = "FIELD_COMPUTATION" then 1200
  else if ty = "SAMPLING" then 600
  else if ty = "VOLUME_RENDERING" then 900
  else if ty = "GAUSSIAN_SPLATTING" then 1500
  else if ty = "RASTERIZATION" then 700
  else if ty = "BLENDING" then 500
  else 800

/-- The `get_double` lambda of `AnalyticalOperatorOptimizer::optimize`. -/
def getDoubleAttr (attrs : AttrMap) (k : String) (dv : ℚ) : ℚ :=
  match attrs k with
  | none => dv
  | some v => v.asD.getD dv

/-- The `get_int` lambda of `AnalyticalOperatorOptimizer::optimize`. -/
def getIntAttr (attrs : AttrMap) (k : String) (dv : ℤ) : ℤ :=
  match attrs k with
  | none => dv
  | some v => v.asI.getD dv

/-- The `get_bool` lambda of `AnalyticalOperatorOptimizer::optimize`. -/
def getBoolAttr (attrs : AttrMap) (k : String) (dv : Bool) : Bool :=
  match attrs k with
  | none => dv
  | some v =>
    if v.lower = "1" ∨ v.lower = "true" ∨ v.lower = "yes" ∨ v.lower = "y" then true
    else if v.lower = "0" ∨ v.lower = "false" ∨ v.lower = "no" ∨ v.lower = "n" then false
    else dv

/-- The hint-gate block of `AnalyticalOperatorOptimizer::optimize`
(optimization_library.cpp:365-409): returns the `gating` multiplier and
the synthetic hint tags pushed onto `applied`.  Note the code treats an
attribute as "present" when it parses to a value `≥ 0` (the `-1.0`
sentinel default). -/
def analyticalGating (ty : String) (attrs : AttrMap) : ℚ × List String :=
  let g1 : ℚ × List String :=
    if ty = "VOLUME_RENDERING" ∨ ty = "SAMPLING" then
      let opacity_threshold := getDoubleAttr attrs "opacity_threshold" (99/100)
      let avg_opacity := getDoubleAttr attrs "avg_opacity" (-1)
      let activeFrac := getDoubleAttr attrs "active_samples_ratio" (-1)
      let p1 : ℚ × List String :=
        if 0 ≤ avg_opacity ∧ opacity_threshold ≤ avg_opacity then
          (17/20, ["hint_early_ray_termination"])
        else (1, [])
      let p2 : ℚ × List String :=
        if 0 ≤ activeFrac then
          (max (11/20) (min 1 (11/20 + (9/20) * activeFrac)), ["hint_sampling_activity"])
        else (1, [])
      (p1.1 * p2.1, p1.2 ++ p2.2)
    else (1, [])
  let g2 : ℚ × List String :=
    if ty = "HASH_ENCODE" ∨ ty = "ENCODING" then
      let hash_active := getBoolAttr attrs "hash_index_activity" false
      let locality := getDoubleAttr attrs "locality_score" (-1)
      let p1 : ℚ × List String :=
        if hash_active then (9/10, ["hint_hash_activity"]) else (1, [])
      let p2 : ℚ × List String :=
        if 0 ≤ locality ∧ 7/10 ≤ locality then (9/10, ["hint_locality"]) else (1, [])
      (p1.1 * p2.1, p1.2 ++ p2.2)
    else (1, [])
  let g3 : ℚ × List String :=
    if ty = "FIELD_COMPUTATION" then
      let low_bit := getBoolAttr attrs "low_bit_observed" false
      let bits := getIntAttr attrs "precision_bits" 16
      let p1 : ℚ × List String :=
        if low_bit ∨ bits ≤ 8 then (9/10, ["hint_low_bit"]) else (1, [])
      let p2 : ℚ := if bits ≤ 4 then 17/20 else 1
      (p1.1 * p2, p1.2)
    else (1, [])
  (g1.1 * g2.1 * g3.1, g1.2 ++ g2.2 ++ g3.2)

/-- `AnalyticalOperatorOptimizer::optimize` (optimization_library.cpp:314-422).
`lg` is the `std::log10` of the C++ runtime, kept as a parameter since the
embedding does not model transcendental double arithmetic. -/
def analyticalOptimize (lg : ℚ → ℚ) (lib : OptimizationLibrary) (ty : String)
    (attrs : AttrMap) : OptimizationResult :=
  let base0 := analyticalBaseCost ty
  let base_cycles : ℤ :=
    match attrs "flop_count" with
    | some v =>
      match v.asD with
      | some flops => base0 + ratTrunc (lg (max 1 flops) * 100)
      | none => base0
    | none => base0
  let strategies := getApplicableStrategies lib ty
  let speedup0 : ℚ := strategies.foldl
    (fun sp s =>
      match s.opt_type with
      | .REUSE => sp * (9/10)
      | .SKIP => sp * (17/20)
      | .LOW_BIT => sp * (19/20)) 1
  let applied0 := strategies.map (fun s => s.name)
  let g := analyticalGating ty attrs
  let speedup := speedup0 * g.1
  { duration := ratTrunc ((base_cycles : ℚ) * speedup),
    applied_optimizations := applied0 ++ g.2,
    speedup_factor := speedup,
    base_duration := base_cycles,
    total_strategies_considered := strategies.length }

/-- `enum class OptimizerFactory::OptimizerType` (operator_scheduler.hpp:118). -/
inductive OptimizerType
  | DUMMY
  | ANALYTICAL
  | ML_BASED
deriving DecidableEq, Repr

/-- `OptimizerFactory::createOptimizer` (operator_scheduler.cpp:187-203).
The source returns a `DummyOperatorOptimizer` in every case, including
`ANALYTICAL` (stale `TODO` in the switch). -/
def createOptimizer (t : OptimizerType) :
    OptimizationLibrary → String → AttrMap → OptimizationResult :=
  match t with
  | .DUMMY => dummyOptimize
  | .ANALYTICAL => dummyOptimize
  | .ML_BASED => dummyOptimize

/-! ### Spec-side formula for the analytical optimizer (claim C7)

These definitions follow the wording of the specification, to be compared
with `analyticalOptimize` above (which is translated from the source). -/

/-- Spec wording: one speedup factor per applicable strategy. -/
def specStrategyFactor (s : OptimizationStrategy) : ℚ :=
  match s.opt_type with
  | .REUSE => 9/10
  | .SKIP => 17/20
  | .LOW_BIT => 19/20

/-- Spec wording: the speedup is the product of one factor per applicable
strategy, times the hint-gate multipliers that fired. -/
def specSpeedup (lib : OptimizationLibrary) (ty : String) (attrs : AttrMap) : ℚ :=
  ((getApplicableStrategies lib ty).map specStrategyFactor).prod *
    (analyticalGating ty attrs).1

/-- Spec wording: base cycles are the per-op-type base cost, plus the
log10 flop adjustment when a parseable `flop_count` attr is present
(the amended claim truncates the adjustment toward zero). -/
def specBaseCycles (lg : ℚ → ℚ) (ty : String) (attrs : AttrMap) : ℤ :=
  analyticalBaseCost ty +
    (match attrs "flop_count" with
     | some v =>
       match v.asD with
       | some flops => ratTrunc (lg (max 1 flops) * 100)
       | none => 0
     | none => 0)

/-! ### Mapping engine (mapping_engine.cpp) -/

/-- `TensorDesc` (ir.hpp). -/
structure TensorDesc where
  shape : List ℤ
  dtype : String
deriving DecidableEq, Repr

/-- `OperatorNode` (ir.hpp). -/
structure OperatorNode where
  id : String
  op_type : String
  inputs : List TensorDesc
  outputs : List TensorDesc
  call_count : ℤ
deriving DecidableEq, Repr

/-- `OperatorGraph` (ir.hpp): edges are index pairs into `nodes`. -/
structure OperatorGraph where
  nodes : List OperatorNode
  edges : List (ℤ × ℤ)
deriving DecidableEq, Repr

/-- `HWUnit` (hw_config.hpp). -/
structure HWUnit where
  id : String
  type : String
deriving DecidableEq, Repr

/-- `HWConfig` (hw_config.hpp). -/
structure HWConfig where
  accelerator_name : String
  units : List HWUnit
deriving DecidableEq, Repr

/-- `HWConfig::units_by_type()[t]` (hw_config_loader.cpp:12): the units of
type `t` in `units` order; the C++ map omits the key exactly when this
list is empty. -/
def unitsOfType (cfg : HWConfig) (t : String) : List HWUnit :=
  cfg.units.filter (fun u => u.type == t)

/-- ASCII `std::toupper` used by `to_upper` (mapping_engine.cpp:12). -/
def asciiUpperChar (c : Char) : Char :=
  if 'a' ≤ c ∧ c ≤ 'z' then Char.ofNat (c.toNat - 32) else c

/-- `to_upper` (mapping_engine.cpp:12). -/
def toUpperStr (s : String) : String := String.mk (s.data.map asciiUpperChar)

/-- The curated fallback table `kFallbacks` (mapping_engine.cpp:17-55). -/
def kFallbacks (t : String) : Option (List String) :=
  if t = "SAMPLING" then some ["VOLUME_RENDERING", "FIELD_COMPUTATION"]
  else if t = "BLENDING" then some ["VOLUME_RENDERING", "BLENDING"]
  else if t = "RAY_TRACING" then some ["VOLUME_RENDERING", "FIELD_COMPUTATION"]
  else if t = "HASH_ENCODE" then some ["HASH_ENCODE", "POSITIONAL_ENCODE", "FIELD_COMPUTATION"]
  else if t = "POSITIONAL_ENCODE" then some ["POSITIONAL_ENCODE", "HASH_ENCODE", "FIELD_COMPUTATION"]
  else if t = "MLP" then some ["MLP", "FIELD_COMPUTATION"]
  else if t = "POSITIONAL_ENCODING" then some ["POSITIONAL_ENCODE", "FIELD_COMPUTATION"]
  else if t = "MLP_COMPUTATION" then some ["MLP", "FIELD_COMPUTATION"]
  else if t = "RGB_VOLUME_RENDERING" then some ["VOLUME_RENDERING", "BLENDING"]
  else if t = "VOLUME_RENDERING" then some ["VOLUME_RENDERING", "BLENDING"]
  else if t = "TILEMERGING" then some ["TILEMERGING", "BLENDING", "FIELD_COMPUTATION"]
  else if t = "FEATURECOMPUTE" then some ["FEATURECOMPUTE", "FIELD_COMPUTATION"]
  else if t = "GRADIENTCOMPUTE" then some ["GRADIENTCOMPUTE", "GRADIENT_ACCUMULATION", "FIELD_COMPUTATION"]
  else if t = "GRADIENTPRUNING" then some ["GRADIENTPRUNING", "OPTIMIZATION"]
  else if t = "REARRANGEMENT" then some ["REARRANGEMENT", "OPTIMIZATION"]
  else if t = "ROWPROCESSING" then some ["ROWPROCESSING", "FIELD_COMPUTATION"]
  else if t = "ROWGENERATION" then some ["ROWGENERATION", "ENCODING"]
  else if t = "DECOMPBINNING" then some ["DECOMPBINNING", "OPTIMIZATION"]
  else if t = "FRM" then some ["FRM", "HASH_ENCODE", "ENCODING"]
  else if t = "BUM" then some ["BUM", "GRADIENT_ACCUMULATION", "OPTIMIZATION"]
  else if t = "MLP (B)" then some ["MLP", "FIELD_COMPUTATION"]
  else if t = "HASH_ENCODE (B)" then some ["HASH_ENCODE", "BUM", "ENCODING"]
  else if t = "HASHENCODING (B)" then some ["HASH_ENCODE", "BUM", "ENCODING"]
  else if t = "BLENDING (B)" then some ["BLENDING", "GRADIENTCOMPUTE", "VOLUME_RENDERING"]
  else if t = "GAUSSIANALPHABLEND (B)" then some ["GRADIENTCOMPUTE", "BLENDING"]
  else if t = "RGBRENDERER (B)" then some ["VOLUME_RENDERING", "BLENDING"]
  else if t = "DENSITYRENDERER (B)" then some ["VOLUME_RENDERING", "BLENDING"]
  else if t = "UNKNOWN" then some ["FIELD_COMPUTATION", "VOLUME_RENDERING", "POSITIONAL_ENCODE"]
  else none

/-- The fallback-table step (mapping_engine.cpp:93-104): first alternate
type with at least one unit, if any. -/
def fallbackCandidates (cfg : HWConfig) (key : String) : Option (List HWUnit) :=
  match kFallbacks key with
  | some fbs =>
    match fbs.find? (fun t => !(unitsOfType cfg t).isEmpty) with
    | some t => some (unitsOfType cfg t)
    | none => none
  | none => none

/-- The `is_backward` test of `map_operator_graph`
(mapping_engine.cpp:75): uppercased type longer than 4 ending in
`" (B)"`. -/
def isBackwardType (s : String) : Bool :=
  decide (4 < s.length) && s.endsWith " (B)"

/-- Direct-match lookup: the candidate list when the type has at least
one unit (mapping_engine.cpp:79-82). -/
def nonEmptyUnits (cfg : HWConfig) (t : String) : Option (List HWUnit) :=
  if (unitsOfType cfg t).isEmpty then none else some (unitsOfType cfg t)

/-- The generic-fallback step (mapping_engine.cpp:120-128). -/
def genericCandidates (cfg : HWConfig) : Option (List HWUnit) :=
  match ["GENERIC", "FIELD_COMPUTATION", "ENCODING"].find?
      (fun t => !(unitsOfType cfg t).isEmpty) with
  | some t => some (unitsOfType cfg t)
  | none => none

/-- The candidate list selected by `map_operator_graph` for one op type
(mapping_engine.cpp:70-136): direct match, backward-base direct match,
curated fallback, backward-base fallback, generic fallback, last resort.
`none` exactly when the C++ throws (zero units in the config). -/
def candidatesFor (cfg : HWConfig) (raw_ty : String) : Option (List HWUnit) :=
  let op_type := toUpperStr raw_ty
  let is_b := isBackwardType op_type
  let base := op_type.dropRight 4
  let c1 := nonEmptyUnits cfg op_type
  let c2 := if c1.isSome then c1 else if is_b then nonEmptyUnits cfg base else none
  let c3 := if c2.isSome then c2 else fallbackCandidates cfg op_type
  let c4 := if c3.isSome then c3 else if is_b then fallbackCandidates cfg base else none
  let c5 := if c4.isSome then c4 else genericCandidates cfg
  if c5.isSome then c5 else if cfg.units.isEmpty then none else some cfg.units

/-- The selected unit: the first candidate (`(*candidates)[0]`,
mapping_engine.cpp:138). -/
def selectUnit (cfg : HWConfig) (raw_ty : String) : Option HWUnit :=
  (candidatesFor cfg raw_ty).bind (fun l => l.head?)

/-- `product` (mapping_engine.cpp:57-62): empty shape gives 0, otherwise
the product of the dimensions floored at 1. -/
def shapeProduct (v : List ℤ) : ℤ :=
  if v = [] then 0 else v.foldl (fun p x => p * max 1 x) 1

/-- `MappedIRNode` (operator_scheduler.hpp:15); attribute values are kept
as the literal strings the C++ stores. -/
structure MappedIRNode where
  op_node : OperatorNode
  hw_unit : String
  attrs : List (String × String)
deriving DecidableEq, Repr

/-- `MappedIR` (operator_scheduler.hpp:21): `nodes` is the contents of the
`unordered_map` as an association list with unique keys. -/
structure MappedIR where
  nodes : List (String × MappedIRNode)
  edges : List (String × String)
deriving DecidableEq, Repr

/-- `unordered_map` `operator[]=` on an association list with unique
keys: replace the existing binding or append a new one. -/
def upsert : List (String × MappedIRNode) → String → MappedIRNode →
    List (String × MappedIRNode)
  | [], k, v => [(k, v)]
  | p :: rest, k, v => if p.1 = k then (k, v) :: rest else p :: upsert rest k v

/-- Keyed lookup in an association list (`unordered_map::find`). -/
def lookupNode (l : List (String × MappedIRNode)) (k : String) : Option MappedIRNode :=
  (l.find? (fun p => p.1 == k)).map (fun p => p.2)

/-- The mapped node built for one operator (mapping_engine.cpp:140-157):
selected unit plus the derived scheduling-hint attributes. -/
def mapOne (cfg : HWConfig) (node : OperatorNode) : Option MappedIRNode :=
  (selectUnit cfg node.op_type).map (fun u =>
    let in_elems_sum := (node.inputs.map (fun t => shapeProduct t.shape)).sum
    let out_elems_sum := (node.outputs.map (fun t => shapeProduct t.shape)).sum
    let bytes := (in_elems_sum + out_elems_sum) * 4
    { op_node := node,
      hw_unit := u.id,
      attrs := [("work_elems", toString (max 1 in_elems_sum)),
                ("out_elems", toString (max 1 out_elems_sum)),
                ("bytes", toString (max 1 bytes)),
                ("op_type", toUpperStr node.op_type)] })

/-- `map_operator_graph` (mapping_engine.cpp:64-173).  `none` models the
`std::runtime_error` thrown when the config has no units at all. -/
def map_operator_graph (graph : OperatorGraph) (cfg : HWConfig) : Option MappedIR :=
  let nodesOpt := graph.nodes.foldl
    (fun (acc : Option (List (String × MappedIRNode))) node =>
      acc.bind (fun m => (mapOne cfg node).map (fun mn => upsert m node.id mn)))
    (some [])
  nodesOpt.map (fun m =>
    { nodes := m,
      edges := graph.edges.filterMap (fun (e : ℤ × ℤ) =>
        if e.1 < 0 ∨ e.2 < 0 then none
        else
          match graph.nodes.get? e.1.toNat, graph.nodes.get? e.2.toNat with
          | some s, some d => some (s.id, d.id)
          | _, _ => none) })

/-! ### System-level scheduler (system_scheduler.cpp) -/

/-- `OperatorScheduledIRNode` (operator_scheduler.hpp:26); the unread
`resources` annotation map is omitted. -/
structure OperatorScheduledIRNode where
  mapped_node : MappedIRNode
  start_cycle : ℤ
  duration : ℤ
  optimization_result : OptimizationResult
deriving DecidableEq, Repr

/-- `OperatorScheduledIR` (operator_scheduler.hpp:34): `nodes` lists the
`unordered_map` contents in one iteration order. -/
structure OperatorScheduledIR where
  nodes : List (String × OperatorScheduledIRNode)
  edges : List (String × String)
deriving DecidableEq, Repr

/-- The node-id key list of the IR. -/
def idsOf (ir : OperatorScheduledIR) : List String := ir.nodes.map (fun p => p.1)

/-- Keyed lookup (`unordered_map::find` / `at`). -/
def lookupSNode (ir : OperatorScheduledIR) (k : String) : Option OperatorScheduledIRNode :=
  (ir.nodes.find? (fun p => p.1 == k)).map (fun p => p.2)

/-- Edge filtering of `schedule` (system_scheduler.cpp:37-48): keep only
edges with both endpoints in the node set. -/
def sysFilteredEdges (ir : OperatorScheduledIR) : List (String × String) :=
  ir.edges.filter (fun e => (idsOf ir).contains e.1 && (idsOf ir).contains e.2)

/-- `dependencies[t]`: the producers of `t`, in edge order. -/
def sysDeps (ir : OperatorScheduledIR) (t : String) : List String :=
  (sysFilteredEdges ir).filterMap (fun e => if e.2 = t then some e.1 else none)

/-- `successors[v]`: the consumers of `v`, in edge order. -/
def sysSuccs (ir : OperatorScheduledIR) (v : String) : List String :=
  (sysFilteredEdges ir).filterMap (fun e => if e.1 = v then some e.2 else none)

/-- The mutable state of the recursive lambda in
`SystemLevelScheduler::computeSuccessorCounts` (system_scheduler.cpp:284):
both `unordered_map`s are modelled as total functions with the
`operator[]` default values. -/
structure DFSState where
  visited : String → Bool
  counts : String → ℤ

/-- The loop `for successor : successors[op]` of `countSuccessors`
(system_scheduler.cpp:292-294), accumulating `count += 1 + recurse`. -/
def dfsChildren (rec : String → DFSState → ℤ × DFSState) :
    List String → ℤ → DFSState → ℤ × DFSState
  | [], acc, st => (acc, st)
  | u :: us, acc, st =>
    let r := rec u st
    dfsChildren rec us (acc + 1 + r.1) r.2

/-- The recursive lambda `countSuccessors` (system_scheduler.cpp:285-298),
with explicit fuel; every call made by the embedding carries enough fuel
(each nested call marks a previously unvisited node). -/
def dfsCount (succs : String → List String) : ℕ → String → DFSState → ℤ × DFSState
  | 0, _, s => (0, s)
  | f + 1, v, s =>
    if s.visited v then (s.counts v, s)
    else
      let s1 : DFSState := { s with visited := fun u => if u = v then true else s.visited u }
      let r := dfsChildren (dfsCount succs f) (succs v) 0 s1
      (r.1, { r.2 with counts := fun u => if u = v then r.1 else r.2.counts u })

/-- `SystemLevelScheduler::computeSuccessorCounts`
(system_scheduler.cpp:267-308): run the memoized DFS from every node. -/
def computeSuccessorCounts (V : List String) (succs : String → List String) : String → ℤ :=
  (V.foldl (fun st v => (dfsCount succs (V.length + 1) v st).2)
    { visited := fun _ => false, counts := fun _ => 0 }).counts

/-- The successor-count heuristic as `schedule` uses it. -/
def sysSuccCounts (ir : OperatorScheduledIR) : String → ℤ :=
  computeSuccessorCounts (idsOf ir) (sysSuccs ir)

/-- `max_duration` of `computeCriticalResourceImpact`
(system_scheduler.cpp:317-324). -/
def maxDurationOf (ir : OperatorScheduledIR) : ℚ :=
  ir.nodes.foldl (fun m p => max m ((p.2.duration : ℚ))) 1

/-- `max_memory` (system_scheduler.cpp:318-331): the memory proxy of a
node is 1.0 per input tensor. -/
def maxMemoryOf (ir : OperatorScheduledIR) : ℚ :=
  ir.nodes.foldl (fun m p => max m ((p.2.mapped_node.op_node.inputs.length : ℚ))) 1

/-- `max_compute` (system_scheduler.cpp:319-336); the compute intensity
of a node is `base_duration / max(1, duration)`. -/
def maxComputeOf (ir : OperatorScheduledIR) : ℚ :=
  ir.nodes.foldl
    (fun m p =>
      max m ((p.2.optimization_result.base_duration : ℚ) / max 1 ((p.2.duration : ℚ)))) 1

/-- The weighted blend of `computeCriticalResourceImpact`
(system_scheduler.cpp:340-360). -/
def criticalImpact (ir : OperatorScheduledIR) (n : OperatorScheduledIRNode) : ℚ :=
  let duration_factor := (n.duration : ℚ) / maxDurationOf ir
  let memory_factor :=
    min ((1/2 + (1/10) * (n.mapped_node.op_node.inputs.length : ℚ)) / maxMemoryOf ir) 1
  let compute_factor :=
    ((n.optimization_result.base_duration : ℚ) / max 1 ((n.duration : ℚ))) / maxComputeOf ir
  1/2 * duration_factor + 3/10 * memory_factor + 1/5 * compute_factor

/-- `calculateDAGSScore` (system_scheduler.cpp:365-374). -/
def dagsScore (alpha beta : ℚ) (ir : OperatorScheduledIR) (v : String) : ℚ :=
  let impact : ℚ :=
    match lookupSNode ir v with
    | some n => criticalImpact ir n
    | none => 0
  alpha * ((sysSuccCounts ir v : ℤ) : ℚ) + beta * impact

/-- `SystemScheduleEntry` (system_scheduler.hpp:14). -/
structure SystemScheduleEntry where
  op_id : String
  hw_unit : String
  start_cycle : ℤ
  duration : ℤ
  resource_utilization : ℚ
deriving DecidableEq, Repr

/-- `SystemSchedule` (system_scheduler.hpp:25), restricted to the fields
the claims speak about (`entries`, `total_cycles`). -/
structure SystemSchedule where
  entries : List SystemScheduleEntry
  total_cycles : ℤ
deriving DecidableEq, Repr

/-- One `std::priority_queue<std::pair<double, std::string>>` element. -/
abbrev PQEntry := ℚ × String

/-- The key order of the C++ priority queue: lexicographic on
(score, id), as `std::pair::operator<`. -/
def pqKey (e : PQEntry) : Lex (ℚ × String) := toLex e

/-- `ready_queue.top()` plus `pop()`: remove one maximal element under the
pair order.  The queue is modelled as the list of its elements. -/
def popMax (q : List PQEntry) : Option (PQEntry × List PQEntry) :=
  match q.argmax pqKey with
  | some m => some (m, q.erase m)
  | none => none

/-- The mutable scheduling state of `SystemLevelScheduler::schedule`
(system_scheduler.cpp:83-102): finish-time maps are total functions with
default 0, matching the `find == end → 0` reads in the source. -/
structure SchedState where
  queue : List PQEntry
  scheduled : Finset String
  enqueued : Finset String
  rem : String → ℤ
  hwFin : String → ℤ
  opFin : String → ℤ
  entries : List SystemScheduleEntry

/-- One step of the successor-update loop of the main DAGS iteration
(system_scheduler.cpp:164-174): decrement a positive
remaining-predecessor count and enqueue the operator the moment it
becomes ready. -/
def processOneSucc (score : String → ℚ) (st : SchedState) (u : String) : SchedState :=
  let r0 := st.rem u
  let r1 := if 0 < r0 then r0 - 1 else r0
  let st1 : SchedState := { st with rem := fun x => if x = u then r1 else st.rem x }
  if r1 = 0 ∧ u ∉ st1.scheduled ∧ u ∉ st1.enqueued then
    { st1 with
      queue := (score u, u) :: st1.queue,
      enqueued := insert u st1.enqueued }
  else st1

/-- The successor-update loop (system_scheduler.cpp:161-176). -/
def processSuccs (score : String → ℚ) (sl : List String) (st : SchedState) : SchedState :=
  sl.foldl (processOneSucc score) st

/-- One full body of the DAGS main loop for a popped, not-yet-scheduled
operator (system_scheduler.cpp:122-176). -/
def scheduleOne (depsF succsF : String → List String) (score : String → ℚ)
    (v : String) (node : OperatorScheduledIRNode) (q' : List PQEntry)
    (st : SchedState) : SchedState :=
  let hw_avail := st.hwFin node.mapped_node.hw_unit
  let dep_avail := (depsF v).foldl (fun a d => max a (st.opFin d)) 0
  let start := max hw_avail dep_avail
  let fin := start + node.duration
  let entry : SystemScheduleEntry :=
    { op_id := v, hw_unit := node.mapped_node.hw_unit, start_cycle := start,
      duration := node.duration, resource_utilization := 1 }
  let st1 : SchedState :=
    { queue := q',
      scheduled := insert v st.scheduled,
      enqueued := st.enqueued,
      rem := st.rem,
      hwFin := fun u => if u = node.mapped_node.hw_unit then fin else st.hwFin u,
      opFin := fun u => if u = v then fin else st.opFin u,
      entries := st.entries ++ [entry] }
  processSuccs score (succsF v) st1

/-- The DAGS main loop (system_scheduler.cpp:110-179), fuel-indexed; the
driver supplies enough fuel for the loop to drain (each iteration removes
one queue element and every push is paired with a fresh `enqueued`
insertion). -/
def mainLoop (nodes : List (String × OperatorScheduledIRNode))
    (depsF succsF : String → List String) (score : String → ℚ) :
    ℕ → SchedState → SchedState
  | 0, st => st
  | f + 1, st =>
    match popMax st.queue with
    | none => st
    | some (e, q') =>
      if e.2 ∈ st.scheduled then
        mainLoop nodes depsF succsF score f { st with queue := q' }
      else
        match nodes.find? (fun p => p.1 == e.2) with
        | none =>
          -- unreachable: the queue only ever holds node ids (the C++
          -- `nodes.at` would throw); modelled as a skip
          mainLoop nodes depsF succsF score f { st with queue := q' }
        | some p =>
          mainLoop nodes depsF succsF score f
            (scheduleOne depsF succsF score e.2 p.2 q' st)

/-- One step of the ready-queue seeding loop
(system_scheduler.cpp:93-102). -/
def seedOne (score : String → ℚ) (st : SchedState)
    (p : String × OperatorScheduledIRNode) : SchedState :=
  if st.rem p.1 = 0 then
    { st with
      queue := (score p.1, p.1) :: st.queue,
      enqueued := insert p.1 st.enqueued }
  else st

/-- The initial state: seed the ready queue with every zero-in-degree
node (system_scheduler.cpp:83-102). -/
def seedState (nodes : List (String × OperatorScheduledIRNode))
    (depsF : String → List String) (score : String → ℚ) : SchedState :=
  nodes.foldl (seedOne score)
    { queue := [], scheduled := ∅, enqueued := ∅,
      rem := fun v => ((depsF v).length : ℤ),
      hwFin := fun _ => 0, opFin := fun _ => 0, entries := [] }

/-- One step of the fallback sweep (system_scheduler.cpp:183-202):
schedule a still-unscheduled node greedily by hardware availability. -/
def fallbackOne (st : SchedState) (p : String × OperatorScheduledIRNode) : SchedState :=
  if p.1 ∈ st.scheduled then st
  else
    let start := st.hwFin p.2.mapped_node.hw_unit
    let fin := start + p.2.duration
    let entry : SystemScheduleEntry :=
      { op_id := p.1, hw_unit := p.2.mapped_node.hw_unit, start_cycle := start,
        duration := p.2.duration, resource_utilization := 1 }
    { st with
      scheduled := insert p.1 st.scheduled,
      hwFin := fun u => if u = p.2.mapped_node.hw_unit then fin else st.hwFin u,
      opFin := fun u => if u = p.1 then fin else st.opFin u,
      entries := st.entries ++ [entry] }

/-- The fallback sweep (system_scheduler.cpp:181-203). -/
def fallbackSweep (nodes : List (String × OperatorScheduledIRNode))
    (st : SchedState) : SchedState :=
  nodes.foldl fallbackOne st

/-- The `total_cycles` computation (system_scheduler.cpp:205-222): max
finish over the entries, and if that is 0, the max over the hardware-unit
finish-time map (whose keys are exactly the units of the entries). -/
def totalCyclesOf (st : SchedState) : ℤ :=
  let tc1 := st.entries.foldl
    (fun a e => if a < e.start_cycle + e.duration then e.start_cycle + e.duration else a) 0
  if tc1 = 0 then
    (st.entries.map (fun e => e.hw_unit)).foldl (fun a u => max a (st.hwFin u)) 0
  else tc1

/-- `SystemLevelScheduler::schedule` (system_scheduler.cpp:14-252) with
DAGS weights `alpha`, `beta` (`DAGSConfig`). -/
def systemSchedule (alpha beta : ℚ) (ir : OperatorScheduledIR) : SystemSchedule :=
  if ir.nodes.isEmpty then { entries := [], total_cycles := 0 }
  else
    let depsF := sysDeps ir
    let succsF := sysSuccs ir
    let score := dagsScore alpha beta ir
    let st0 := seedState ir.nodes depsF score
    let st1 := mainLoop ir.nodes depsF succsF score (2 * ir.nodes.length + 1) st0
    let st2 := fallbackSweep ir.nodes st1
    { entries := st2.entries, total_cycles := totalCyclesOf st2 }

/-! ### Spec-side notions used to state the claims -/

/-- Overlap of the half-open occupancy intervals of two schedule entries:
some cycle lies in both `[start, start+duration)` windows. -/
def entriesOverlap (e1 e2 : SystemScheduleEntry) : Prop :=
  ∃ t : ℤ, e1.start_cycle ≤ t ∧ t < e1.start_cycle + e1.duration ∧
    e2.start_cycle ≤ t ∧ t < e2.start_cycle + e2.duration

/-- The exclusive-occupancy property claimed for a schedule: any two
distinct entries on the same hardware unit have non-overlapping
occupancy intervals. -/
def exclusiveOccupancy (entries : List SystemScheduleEntry) : Prop :=
  entries.Pairwise (fun e1 e2 => e1.hw_unit = e2.hw_unit → ¬ entriesOverlap e1 e2)

/-- A topological ranking witnessing that the filtered edge relation of
the IR is acyclic: every kept edge strictly increases the rank. -/
def isTopoRank (ir : OperatorScheduledIR) (rank : String → ℕ) : Prop :=
  ∀ e ∈ sysFilteredEdges ir, rank e.1 < rank e.2

/-- Number of distinct nonempty paths that start at `v` in the successors
graph, computed with fuel (any fuel at least the longest path length gives
the exact count on an acyclic graph). -/
def pathCountF (succs : String → List String) : ℕ → String → ℤ
  | 0, _ => 0
  | f + 1, v => ((succs v).map (fun u => 1 + pathCountF succs f u)).sum

/-- A fuel bound derived from a topological ranking: strictly more than
any rank a node of `V` can take. -/
def rankBoundOf (V : List String) (rank : String → ℕ) : ℕ :=
  V.foldl (fun m v => max m (rank v)) 0 + 1

/-- One expansion step of a reachable set. -/
def descStep (succs : String → List String) (S : Finset String) : Finset String :=
  S ∪ S.biUnion (fun v => (succs v).toFinset)

/-- Iterated expansion: with enough fuel, the full forward closure. -/
def descClosure (succs : String → List String) : ℕ → Finset String → Finset String
  | 0, S => S
  | f + 1, S => descClosure succs f (descStep succs S)

/-- The set of distinct transitive descendants of `v` (nodes reachable by
at least one edge), computed with fuel. -/
def distinctDescendants (succs : String → List String) (fuel : ℕ) (v : String) :
    Finset String :=
  descClosure succs fuel (succs v).toFinset

/-! ### Invariants of the DAGS scheduling state (used in the proofs) -/

/-- Every node id has exactly one entry once scheduled, none before, and
no entry carries an id from outside the node set. -/
def CountInv (ir : OperatorScheduledIR) (st : SchedState) : Prop :=
  (∀ id ∈ idsOf ir,
    (st.entries.map (fun e => e.op_id)).count id = if id ∈ st.scheduled then 1 else 0) ∧
  (∀ id, id ∉ idsOf ir → (st.entries.map (fun e => e.op_id)).count id = 0)

/-- Each hardware-unit finish time is 0 or the finish of one of its
entries. -/
def HwFinInv (st : SchedState) : Prop :=
  ∀ u, st.hwFin u = 0 ∨
    ∃ e ∈ st.entries, e.hw_unit = u ∧ st.hwFin u = e.start_cycle + e.duration

/-- Each scheduled operator's finish time is the finish of its entry. -/
def OpFinInv (st : SchedState) : Prop :=
  ∀ u ∈ st.scheduled,
    ∃ e ∈ st.entries, e.op_id = u ∧ st.opFin u = e.start_cycle + e.duration

/-- Occupancy invariants under nonnegative durations: entries fit below
their unit's finish time, finish times are nonnegative, entry durations
are nonnegative, and same-unit entries are pairwise disjoint. -/
def OccupancyInv (st : SchedState) : Prop :=
  (∀ e ∈ st.entries, e.start_cycle + e.duration ≤ st.hwFin e.hw_unit) ∧
  (∀ u, 0 ≤ st.hwFin u) ∧
  (∀ e ∈ st.entries, 0 ≤ e.duration) ∧
  exclusiveOccupancy st.entries

/-- The remaining-predecessor count dictated by a scheduled set: how
many producers of `u` (counted with multiplicity) are outside `sched`. -/
def remTarget (ir : OperatorScheduledIR) (sched : Finset String) (u : String) : ℤ :=
  (((sysDeps ir u).filter (fun p => !(decide (p ∈ sched)))).length : ℤ)

/-- The remaining-predecessor count of every node equals the number of
its (multiset of) producers not yet scheduled. -/
def RemInv (ir : OperatorScheduledIR) (st : SchedState) : Prop :=
  ∀ u, st.rem u = remTarget ir st.scheduled u

/-- A node whose remaining-predecessor count hit 0 has been enqueued. -/
def ReadyInv (ir : OperatorScheduledIR) (st : SchedState) : Prop :=
  ∀ u ∈ idsOf ir, st.rem u = 0 → u ∈ st.enqueued

/-- Scheduled operators were enqueued. -/
def SchedSubEnqInv (st : SchedState) : Prop :=
  ∀ u ∈ st.scheduled, u ∈ st.enqueued

/-- An enqueued operator is scheduled or still sits in the queue. -/
def EnqueuedInv (st : SchedState) : Prop :=
  ∀ u ∈ st.enqueued, u ∈ st.scheduled ∨ u ∈ st.queue.map (fun e => e.2)

/-- Queue entries carry node ids. -/
def QueueIdsInv (ir : OperatorScheduledIR) (st : SchedState) : Prop :=
  ∀ e ∈ st.queue, e.2 ∈ idsOf ir

/-- Queue entries were enqueued. -/
def QueueSubEnqInv (st : SchedState) : Prop :=
  ∀ e ∈ st.queue, e.2 ∈ st.enqueued

/-- All producers of an enqueued operator are scheduled. -/
def PredsDoneInv (ir : OperatorScheduledIR) (st : SchedState) : Prop :=
  ∀ u ∈ st.enqueued, ∀ p ∈ sysDeps ir u, p ∈ st.scheduled

/-- Dependency ordering of the emitted entries: a consumer's entry is
preceded by a producer entry that finishes no later than it starts. -/
def OrdInv (ir : OperatorScheduledIR) (st : SchedState) : Prop :=
  ∀ e ∈ sysFilteredEdges ir, ∀ ec ∈ st.entries, ec.op_id = e.2 →
    ∃ ep ∈ st.entries, ep.op_id = e.1 ∧
      ep.start_cycle + ep.duration ≤ ec.start_cycle

/-- The conjunction of the bookkeeping invariants that drive the
dependency-ordering proof. -/
def DepInv (ir : OperatorScheduledIR) (st : SchedState) : Prop :=
  OpFinInv st ∧ RemInv ir st ∧ ReadyInv ir st ∧ SchedSubEnqInv st ∧
    EnqueuedInv st ∧ QueueIdsInv ir st ∧ QueueSubEnqInv st ∧
    PredsDoneInv ir st ∧ OrdInv ir st

/-- The termination measure of the DAGS main loop: queue length plus the
number of node ids not yet enqueued. -/
def loopMeasure (ir : OperatorScheduledIR) (st : SchedState) : ℕ :=
  st.queue.length + ((idsOf ir).toFinset \ st.enqueued).card

/-! ### Concrete inputs for counterexamples and witnesses -/

/-- A scheduled-IR node with the fields the system scheduler reads:
hardware unit, duration and the optimizer's base duration. -/
def exSNode (hw : String) (dur base : ℤ) : OperatorScheduledIRNode :=
  { mapped_node :=
      { op_node := { id := "", op_type := "", inputs := [], outputs := [], call_count := 1 },
        hw_unit := hw, attrs := [] },
    start_cycle := 0, duration := dur,
    optimization_result :=
      { duration := dur, applied_optimizations := [], speedup_factor := 1,
        base_duration := base, total_strategies_considered := 0 } }

/-- Three independent operators on one unit, one with a negative
(int32-representable) duration: input for the C2 counterexample. -/
def negDurIR : OperatorScheduledIR :=
  { nodes := [("xa", exSNode "U" 10 0), ("xb", exSNode "U" (-1) 60),
              ("xc", exSNode "U" 1 0)],
    edges := [] }

/-- A single operator of negative duration: input for the C4
counterexample. -/
def negTotalIR : OperatorScheduledIR :=
  { nodes := [("za", exSNode "U" (-5) 0)], edges := [] }

/-- The diamond dependency graph (`da → db → dd`, `da → dc → dd`). -/
def diamondIR : OperatorScheduledIR :=
  { nodes := [("da", exSNode "H" 1 0), ("db", exSNode "H" 1 0),
              ("dc", exSNode "H" 1 0), ("dd", exSNode "H" 1 0)],
    edges := [("da", "db"), ("da", "dc"), ("db", "dd"), ("dc", "dd")] }

/-- A topological ranking of the diamond graph. -/
def diamondRank (s : String) : ℕ :=
  if s = "da" then 0 else if s = "dd" then 2 else 1

/-- A two-node dependency cycle plus an edge with a foreign endpoint:
input exercising the fallback sweep and the edge filter (C1 witness). -/
def cyclicIR : OperatorScheduledIR :=
  { nodes := [("p", exSNode "U" 3 0), ("q", exSNode "V" 4 0)],
    edges := [("p", "q"), ("q", "p"), ("p", "zz")] }

/-- A two-node chain on distinct units (C3 witness). -/
def chainIR : OperatorScheduledIR :=
  { nodes := [("p", exSNode "U" 3 0), ("q", exSNode "V" 4 0)],
    edges := [("p", "q")] }

/-- A topological ranking of the chain. -/
def chainRank (s : String) : ℕ := if s = "q" then 1 else 0

/-- Hardware config for the C9 counterexample: the backward op type
`GAUSSIANALPHABLEND (B)` has no direct units, its base type has one, and
the fallback table's second alternate (`BLENDING`) also has one. -/
def cfgGAB : HWConfig :=
  { accelerator_name := "A",
    units := [{ id := "g1", type := "GAUSSIANALPHABLEND" },
              { id := "b1", type := "BLENDING" }] }

/-- Hardware config for the C9 amended witness: only a
`FIELD_COMPUTATION` unit, so for op type `SAMPLING` the first fallback
alternate (`VOLUME_RENDERING`) has no units and the second wins. -/
def cfgSampling : HWConfig :=
  { accelerator_name := "A",
    units := [{ id := "f1", type := "FIELD_COMPUTATION" }] }

/-- An operator graph with two nodes sharing one id (C10 witness). -/
def dupIdGraph : OperatorGraph :=
  { nodes := [{ id := "n", op_type := "ALPHA", inputs := [], outputs := [], call_count := 1 },
              { id := "n", op_type := "BETA", inputs := [], outputs := [], call_count := 1 }],
    edges := [] }

/-- A one-unit config for the C10 witness. -/
def cfgGeneric : HWConfig :=
  { accelerator_name := "A", units := [{ id := "u0", type := "GENERIC" }] }

/-! ## Theorems -/

/-! ### Claim C6 (optimizer factory) -/

/-- C6: `OptimizerFactory::createOptimizer` returns the Dummy optimizer
for every selector — including `ANALYTICAL`, which the claim says must
behave as `AnalyticalOperatorOptimizer`.  At op type `HASH_ENCODE` with
no attrs and the built-in library the factory's `ANALYTICAL` optimizer
returns duration 1 (the Dummy result) while
`AnalyticalOperatorOptimizer::optimize` returns 324, so the claim's
required difference between DUMMY and ANALYTICAL never materializes:
the factory code contradicts its own `ANALYTICAL` enum documentation. -/
theorem optimizer_factory_analytical_is_dummy :
    createOptimizer .ANALYTICAL = dummyOptimize ∧
    createOptimizer .ML_BASED = dummyOptimize ∧
    createOptimizer .DUMMY = dummyOptimize ∧
    (createOptimizer .ANALYTICAL builtinLibrary "HASH_ENCODE" noAttrs).duration = 1 ∧
    (analyticalOptimize (fun _ => 0) builtinLibrary "HASH_ENCODE" noAttrs).duration = 324 := by
  refine ⟨rfl, rfl, rfl, ?_, ?_⟩ <;> with_unfolding_all decide

/-! ### Claim C7 (analytical optimizer formula) -/

/-- C7 counterexample: the claim says
`duration = round(base_cycles * speedup)`, but the source truncates
(`static_cast<int32_t>`).  For `FIELD_COMPUTATION` with
`precision_bits = 8` under the built-in library the product is
`1200 * 0.729 = 874.8`: the code returns 874 while the claimed rounding
gives 875. -/
theorem analytical_round_counterexample :
    (analyticalOptimize (fun _ => 0) builtinLibrary "FIELD_COMPUTATION"
        (attrsOfList [("precision_bits", intAttr 8)])).duration ≠
      ratRound
        (((analyticalOptimize (fun _ => 0) builtinLibrary "FIELD_COMPUTATION"
            (attrsOfList [("precision_bits", intAttr 8)])).base_duration : ℚ) *
          (analyticalOptimize (fun _ => 0) builtinLibrary "FIELD_COMPUTATION"
            (attrsOfList [("precision_bits", intAttr 8)])).speedup_factor) := by
  with_unfolding_all decide

/-- C7 as amended: for every operator type, attribute map, library and
log10 model, the analytical optimizer's duration is the *truncation
toward zero* (not the rounding) of `base_cycles * speedup`, where
`base_cycles` is the per-type base cost plus the (also truncated) log10
flop adjustment, and `speedup` is the product of one factor per
applicable strategy (REUSE 0.9, SKIP 0.85, LOW_BIT 0.95) times the
hint-gate multipliers that fired. -/
theorem analytical_duration_eq_trunc_formula (lg : ℚ → ℚ) (lib : OptimizationLibrary)
    (ty : String) (attrs : AttrMap) :
    (analyticalOptimize lg lib ty attrs).duration =
      ratTrunc ((specBaseCycles lg ty attrs : ℚ) * specSpeedup lib ty attrs) ∧
    (analyticalOptimize lg lib ty attrs).base_duration = specBaseCycles lg ty attrs ∧
    (analyticalOptimize lg lib ty attrs).speedup_factor = specSpeedup lib ty attrs := by
  have hfold : ∀ (l : List OptimizationStrategy) (a : ℚ),
      l.foldl
        (fun sp s =>
          match s.opt_type with
          | .REUSE => sp * (9/10)
          | .SKIP => sp * (17/20)
          | .LOW_BIT => sp * (19/20)) a
        = a * (l.map specStrategyFactor).prod := by
    intro l
    induction l with
    | nil => intro a; simp
    | cons s l ih =>
      intro a
      rcases h : s.opt_type <;>
        simp [List.foldl_cons, h, ih, specStrategyFactor] <;> ring
  have hbase : (analyticalOptimize lg lib ty attrs).base_duration
      = specBaseCycles lg ty attrs := by
    simp only [analyticalOptimize, specBaseCycles]
    rcases h : attrs "flop_count" with _ | v
    · simp
    · rcases hD : v.asD with _ | f <;> simp [hD]
  have hsp : (analyticalOptimize lg lib ty attrs).speedup_factor
      = specSpeedup lib ty attrs := by
    simp only [analyticalOptimize, specSpeedup, hfold, one_mul]
  refine ⟨?_, hbase, hsp⟩
  have : (analyticalOptimize lg lib ty attrs).duration
      = ratTrunc (((analyticalOptimize lg lib ty attrs).base_duration : ℚ) *
          (analyticalOptimize lg lib ty attrs).speedup_factor) := by
    simp only [analyticalOptimize]
  rw [this, hbase, hsp]

/-! ### Claim C8 (dummy optimizer monotonicity) -/

theorem ratTrunc_mono_of_nonneg {a b : ℚ} (h0 : 0 ≤ a) (h : a ≤ b) :
    ratTrunc a ≤ ratTrunc b := by
  rw [ratTrunc, ratTrunc, if_pos h0, if_pos (h0.trans h)]
  exact Int.floor_le_floor h

theorem dummyElemsPerCycle_pos (ty : String) : 0 < dummyElemsPerCycle ty := by
  unfold dummyElemsPerCycle; split_ifs <;> norm_num

theorem dummyBytesPerCycle_pos (ty : String) : 0 < dummyBytesPerCycle ty := by
  unfold dummyBytesPerCycle; split_ifs <;> norm_num

theorem dummySpeedupFactor_nonneg (lib : OptimizationLibrary) (ty : String) :
    0 ≤ dummySpeedupFactor lib ty := by
  have key : ∀ (l : List OptimizationStrategy) (a : ℚ), 0 ≤ a →
      0 ≤ l.foldl
        (fun sf s => if s.opt_type = .SKIP ∨ s.opt_type = .REUSE then sf * (4/5) else sf) a := by
    intro l
    induction l with
    | nil => intro a ha; simpa using ha
    | cons s l ih =>
      intro a ha
      rw [List.foldl_cons]
      apply ih
      split
      · positivity
      · exact ha
  exact key _ 1 (by norm_num)

theorem dummyWorkloadCycles_nonneg (ty : String) (attrs : AttrMap) :
    0 ≤ dummyWorkloadCycles ty attrs := by
  rw [dummyWorkloadCycles]
  split
  · next h => exact Int.ceil_nonneg (le_of_lt (div_pos h.1 h.2))
  · exact le_refl 0

theorem dummyWorkloadCycles_mono {ty : String} {a1 a2 : AttrMap}
    (h : dummyWork a1 ≤ dummyWork a2) :
    dummyWorkloadCycles ty a1 ≤ dummyWorkloadCycles ty a2 := by
  have hepc := dummyElemsPerCycle_pos ty
  rw [dummyWorkloadCycles, dummyWorkloadCycles]
  by_cases h1 : 0 < dummyWork a1
  · have h2 : 0 < dummyWork a2 := lt_of_lt_of_le h1 h
    rw [if_pos ⟨h1, hepc⟩, if_pos ⟨h2, hepc⟩]
    exact Int.ceil_le_ceil (by gcongr)
  · rw [if_neg (fun hc => h1 hc.1)]
    have := dummyWorkloadCycles_nonneg ty a2
    rw [dummyWorkloadCycles] at this
    exact this

theorem dummyComputeCycles_mono_work (lib : OptimizationLibrary) (ty : String)
    {a1 a2 : AttrMap} (h : dummyWork a1 ≤ dummyWork a2) :
    dummyComputeCycles lib ty a1 ≤ dummyComputeCycles lib ty a2 := by
  rw [dummyComputeCycles, dummyComputeCycles]
  apply ratTrunc_mono_of_nonneg (le_trans zero_le_one (le_max_left _ _))
  apply max_le_max le_rfl
  apply mul_le_mul_of_nonneg_right _ (dummySpeedupFactor_nonneg lib ty)
  exact_mod_cast add_le_add_left (dummyWorkloadCycles_mono h) 0

theorem dummyMemCycles_mono {ty : String} {a1 a2 : AttrMap}
    (h : dummyBytes a1 ≤ dummyBytes a2) :
    dummyMemCycles ty a1 ≤ dummyMemCycles ty a2 := by
  have hbpc := dummyBytesPerCycle_pos ty
  rw [dummyMemCycles, dummyMemCycles]
  by_cases h1 : 0 < dummyBytes a1
  · have h2 : 0 < dummyBytes a2 := lt_of_lt_of_le h1 h
    rw [if_pos ⟨h1, hbpc⟩, if_pos ⟨h2, hbpc⟩]
    exact Int.ceil_le_ceil (by gcongr)
  · rw [if_neg (fun hc => h1 hc.1)]
    split
    · next hcond => exact Int.ceil_nonneg (le_of_lt (div_pos hcond.1 hcond.2))
    · exact le_refl 0

theorem setAttr_same (m : AttrMap) (k : String) (v : AttrVal) :
    setAttr m k v k = some v := by simp [setAttr]

theorem setAttr_other (m : AttrMap) (k : String) (v : AttrVal) (k' : String)
    (h : k' ≠ k) : setAttr m k v k' = m k' := by simp [setAttr, h]

theorem dummyWork_mono_setWork (attrs : AttrMap) {w1 w2 : ℚ} {v1 v2 : AttrVal}
    (h1 : v1.asD = some w1) (h2 : v2.asD = some w2) (h : w1 ≤ w2) :
    dummyWork (setAttr attrs "work_elems" v1) ≤ dummyWork (setAttr attrs "work_elems" v2) := by
  rw [dummyWork, dummyWork]
  rw [setAttr_same, setAttr_same, setAttr_other _ _ _ _ (by decide),
    setAttr_other _ _ _ _ (by decide)]
  rcases hf : attrs "flop_count" with _ | v
  · simp only [h1, h2, Option.getD_some]; exact h
  · rcases hd : v.asD with _ | f
    · simp only [hd, h1, h2, Option.getD_some]; exact h
    · simp only [hd, h1, h2, Option.getD_some]; exact max_le_max h le_rfl

theorem dummyBytes_setBytes (attrs : AttrMap) {b : ℚ} {v : AttrVal}
    (hv : v.asD = some b) : dummyBytes (setAttr attrs "bytes" v) = b := by
  rw [dummyBytes, setAttr_same]
  simp [hv]

theorem dummyWork_setBytes (attrs : AttrMap) (v : AttrVal) :
    dummyWork (setAttr attrs "bytes" v) = dummyWork attrs := by
  rw [dummyWork, dummyWork,
    setAttr_other _ _ _ _ (by decide), setAttr_other _ _ _ _ (by decide)]

theorem dummyBytes_setWork (attrs : AttrMap) (v : AttrVal) :
    dummyBytes (setAttr attrs "work_elems" v) = dummyBytes attrs := by
  rw [dummyBytes, dummyBytes, setAttr_other _ _ _ _ (by decide)]

theorem getApplicable_cons_of_applicable {s : OptimizationStrategy}
    {ty : String} (hs : s.isApplicableTo ty = true) (lib : OptimizationLibrary) :
    getApplicableStrategies (s :: lib) ty = s :: getApplicableStrategies lib ty := by
  simp [getApplicableStrategies, List.filter_cons, hs]

theorem dummySpeedup_foldl_scale (l : List OptimizationStrategy) (a : ℚ) :
    l.foldl
      (fun sf s => if s.opt_type = .SKIP ∨ s.opt_type = .REUSE then sf * (4/5) else sf) a
      = a * l.foldl
        (fun sf s => if s.opt_type = .SKIP ∨ s.opt_type = .REUSE then sf * (4/5) else sf) 1 := by
  induction l generalizing a with
  | nil => simp
  | cons s l ih =>
    have h1 := ih (if s.opt_type = .SKIP ∨ s.opt_type = .REUSE then a * (4/5) else a)
    have h2 := ih (if s.opt_type = .SKIP ∨ s.opt_type = .REUSE then 1 * (4/5) else 1)
    simp only [List.foldl_cons]
    rw [h1, h2]
    split <;> ring

theorem dummySpeedupFactor_cons {s : OptimizationStrategy} {ty : String}
    (hs : s.isApplicableTo ty = true)
    (hty : s.opt_type = .SKIP ∨ s.opt_type = .REUSE) (lib : OptimizationLibrary) :
    dummySpeedupFactor (s :: lib) ty = (4/5) * dummySpeedupFactor lib ty := by
  rw [dummySpeedupFactor, dummySpeedupFactor, getApplicable_cons_of_applicable hs,
    List.foldl_cons, dummySpeedup_foldl_scale, if_pos hty, one_mul]

/-- C8: for the Dummy optimizer with a fixed operator type: raising the
numeric value of the `work_elems` attr (all other attrs fixed) never
decreases the duration; raising the `bytes` attr never decreases the
duration; and registering one more strategy of type SKIP or REUSE that is
applicable to the operator type never increases the duration. -/
theorem dummy_optimizer_monotonicity :
    (∀ (lib : OptimizationLibrary) (ty : String) (attrs : AttrMap)
        (w1 w2 : ℚ) (v1 v2 : AttrVal),
        v1.asD = some w1 → v2.asD = some w2 → w1 ≤ w2 →
        (dummyOptimize lib ty (setAttr attrs "work_elems" v1)).duration ≤
          (dummyOptimize lib ty (setAttr attrs "work_elems" v2)).duration) ∧
    (∀ (lib : OptimizationLibrary) (ty : String) (attrs : AttrMap)
        (b1 b2 : ℚ) (v1 v2 : AttrVal),
        v1.asD = some b1 → v2.asD = some b2 → b1 ≤ b2 →
        (dummyOptimize lib ty (setAttr attrs "bytes" v1)).duration ≤
          (dummyOptimize lib ty (setAttr attrs "bytes" v2)).duration) ∧
    (∀ (lib : OptimizationLibrary) (s : OptimizationStrategy) (ty : String)
        (attrs : AttrMap),
        s.isApplicableTo ty = true →
        (s.opt_type = .SKIP ∨ s.opt_type = .REUSE) →
        (dummyOptimize (s :: lib) ty attrs).duration ≤
          (dummyOptimize lib ty attrs).duration) := by
  refine ⟨?_, ?_, ?_⟩
  · intro lib ty attrs w1 w2 v1 v2 h1 h2 h
    simp only [dummyOptimize]
    apply max_le_max
    · exact dummyComputeCycles_mono_work lib ty (dummyWork_mono_setWork attrs h1 h2 h)
    · rw [dummyMemCycles, dummyMemCycles, dummyBytes_setWork, dummyBytes_setWork]
  · intro lib ty attrs b1 b2 v1 v2 h1 h2 h
    simp only [dummyOptimize]
    apply max_le_max
    · rw [dummyComputeCycles, dummyComputeCycles, dummyWorkloadCycles, dummyWorkloadCycles,
        dummyWork_setBytes, dummyWork_setBytes]
    · exact dummyMemCycles_mono (by rw [dummyBytes_setBytes attrs h1, dummyBytes_setBytes attrs h2]; exact h)
  · intro lib s ty attrs hs hty
    simp only [dummyOptimize]
    apply max_le_max _ le_rfl
    rw [dummyComputeCycles, dummyComputeCycles]
    apply ratTrunc_mono_of_nonneg (le_trans zero_le_one (le_max_left _ _))
    apply max_le_max le_rfl
    rw [dummySpeedupFactor_cons hs hty lib]
    have hx : (0:ℚ) ≤ (((0 : ℤ) + dummyWorkloadCycles ty attrs : ℤ) : ℚ) := by
      exact_mod_cast add_nonneg le_rfl (dummyWorkloadCycles_nonneg ty attrs)
    apply mul_le_mul_of_nonneg_left _ hx
    have := dummySpeedupFactor_nonneg lib ty
    nlinarith

/-- C8 witness: the three monotonicity statements applied at concrete
inputs — `SAMPLING` under the built-in library with `work_elems` raised
from 1 to 2, `bytes` raised from 3 to 5, and the built-in library
extended by one applicable SKIP strategy. -/
theorem dummy_optimizer_monotonicity_witness :
    (dummyOptimize builtinLibrary "SAMPLING"
        (setAttr noAttrs "work_elems" (ratAttr 1))).duration ≤
      (dummyOptimize builtinLibrary "SAMPLING"
        (setAttr noAttrs "work_elems" (ratAttr 2))).duration ∧
    (dummyOptimize builtinLibrary "SAMPLING"
        (setAttr noAttrs "bytes" (ratAttr 3))).duration ≤
      (dummyOptimize builtinLibrary "SAMPLING"
        (setAttr noAttrs "bytes" (ratAttr 5))).duration ∧
    (dummyOptimize
        ({ name := "extra_skip", opt_type := .SKIP, scope := .ELEMENT_LEVEL,
           criteria := .THRESHOLD_BASED, applicable_operators := ["SAMPLING"] } ::
          builtinLibrary) "SAMPLING" noAttrs).duration ≤
      (dummyOptimize builtinLibrary "SAMPLING" noAttrs).duration :=
  ⟨dummy_optimizer_monotonicity.1 builtinLibrary "SAMPLING" noAttrs 1 2 _ _ rfl rfl
      (by norm_num),
    dummy_optimizer_monotonicity.2.1 builtinLibrary "SAMPLING" noAttrs 3 5 _ _ rfl rfl
      (by norm_num),
    dummy_optimizer_monotonicity.2.2 builtinLibrary _ "SAMPLING" noAttrs (by decide)
      (Or.inl rfl)⟩

/-! ### Claim C9 (mapping fallback ordering) -/

theorem mem_unitsOfType_type {cfg : HWConfig} {t : String} {u : HWUnit}
    (h : u ∈ unitsOfType cfg t) : u.type = t := by
  have h2 := (List.mem_filter.1 h).2
  simpa using h2

theorem fallbackCandidates_of_find {cfg : HWConfig} {key : String}
    {fbs : List String} {t : String}
    (hfb : kFallbacks key = some fbs)
    (hfind : fbs.find? (fun ty => !(unitsOfType cfg ty).isEmpty) = some t) :
    fallbackCandidates cfg key = some (unitsOfType cfg t) := by
  simp only [fallbackCandidates, hfb, hfind]

/-- C9 counterexample: `GAUSSIANALPHABLEND (B)` has no direct-match
units in `cfgGAB`, its fallback entry is `[GRADIENTCOMPUTE, BLENDING]`
whose first alternate has no units and whose second has one — yet the
selected unit is the `GAUSSIANALPHABLEND` unit, because the
backward-base direct match (mapping_engine.cpp:85-90) takes precedence
over the fallback table.  The claim's "selected unit's type equals the
second alternate" is therefore false as stated. -/
theorem fallback_order_counterexample :
    unitsOfType cfgGAB (toUpperStr "GAUSSIANALPHABLEND (B)") = [] ∧
    kFallbacks (toUpperStr "GAUSSIANALPHABLEND (B)") =
      some ["GRADIENTCOMPUTE", "BLENDING"] ∧
    unitsOfType cfgGAB "GRADIENTCOMPUTE" = [] ∧
    unitsOfType cfgGAB "BLENDING" = [{ id := "b1", type := "BLENDING" }] ∧
    selectUnit cfgGAB "GAUSSIANALPHABLEND (B)" =
      some { id := "g1", type := "GAUSSIANALPHABLEND" } := by
  with_unfolding_all decide

/-- C9 as amended: when the uppercased op type has no direct-match units
*and, if it is a backward variant, its base type also has no direct-match
units*, the curated fallback alternates are tried strictly in list order
and the first alternate type with at least one available unit wins,
the selected unit being the first unit of that type. -/
theorem fallback_order_selects_first_available (cfg : HWConfig) (raw : String)
    (fbs : List String) (t : String)
    (hdirect : unitsOfType cfg (toUpperStr raw) = [])
    (hback : isBackwardType (toUpperStr raw) = true →
      unitsOfType cfg ((toUpperStr raw).dropRight 4) = [])
    (hfb : kFallbacks (toUpperStr raw) = some fbs)
    (hfind : fbs.find? (fun ty => !(unitsOfType cfg ty).isEmpty) = some t) :
    ∃ u, selectUnit cfg raw = some u ∧ u.type = t ∧
      (unitsOfType cfg t).head? = some u := by
  have hc1 : nonEmptyUnits cfg (toUpperStr raw) = none := by
    rw [nonEmptyUnits, hdirect]; rfl
  have hfallb := fallbackCandidates_of_find hfb hfind
  have hne : unitsOfType cfg t ≠ [] := by
    have hp := List.find?_some hfind
    intro hemp
    rw [hemp] at hp
    simp at hp
  have hcand : candidatesFor cfg raw = some (unitsOfType cfg t) := by
    unfold candidatesFor
    cases hb : isBackwardType (toUpperStr raw) with
    | false => simp [hc1, hb, hfallb]
    | true =>
      have hcb : nonEmptyUnits cfg ((toUpperStr raw).dropRight 4) = none := by
        rw [nonEmptyUnits, hback hb]; rfl
      simp [hc1, hb, hcb, hfallb]
  obtain ⟨u, hu⟩ : ∃ u, (unitsOfType cfg t).head? = some u := by
    cases hl : unitsOfType cfg t with
    | nil => exact absurd hl hne
    | cons a l => exact ⟨a, rfl⟩
  refine ⟨u, ?_, ?_, hu⟩
  · rw [selectUnit, hcand]
    simpa using hu
  · exact mem_unitsOfType_type (List.mem_of_mem_head? hu)

/-- C9 witness: for op type `SAMPLING` under `cfgSampling` the first
fallback alternate (`VOLUME_RENDERING`) has no units and the second
(`FIELD_COMPUTATION`) has one, so the selected unit's type equals the
second alternate. -/
theorem fallback_order_witness :
    ∃ u, selectUnit cfgSampling "SAMPLING" = some u ∧
      u.type = "FIELD_COMPUTATION" ∧
      (unitsOfType cfgSampling "FIELD_COMPUTATION").head? = some u :=
  fallback_order_selects_first_available cfgSampling "SAMPLING"
    ["VOLUME_RENDERING", "FIELD_COMPUTATION"] "FIELD_COMPUTATION"
    (by with_unfolding_all decide)
    (fun h => absurd h (by with_unfolding_all decide))
    (by with_unfolding_all decide)
    (by with_unfolding_all decide)

/-! ### Claim C10 (mapping keyed by id, last id wins) -/

theorem lookupNode_upsert (l : List (String × MappedIRNode)) (k : String)
    (v : MappedIRNode) (id : String) :
    lookupNode (upsert l k v) id = if id = k then some v else lookupNode l id := by
  induction l with
  | nil =>
    by_cases h : id = k
    · simp [upsert, lookupNode, List.find?, h]
    · have hke : (k == id) = false := beq_eq_false_iff_ne.2 (Ne.symm h)
      simp [upsert, lookupNode, List.find?, h, hke]
  | cons p rest ih =>
    by_cases hp : p.1 = k
    · by_cases h : id = k
      · simp [upsert, lookupNode, List.find?, hp, h]
      · have hp1 : (p.1 == id) = false :=
          beq_eq_false_iff_ne.2 (fun hc => h (hc ▸ hp))
        have hke : (k == id) = false := beq_eq_false_iff_ne.2 (Ne.symm h)
        simp [upsert, lookupNode, List.find?, hp, h, hp1, hke]
    · by_cases h : p.1 = id
      · have hik : ¬ id = k := fun hc => hp (h.trans hc)
        simp [upsert, lookupNode, List.find?, hp, h, hik]
      · have hp1 : (p.1 == id) = false := beq_eq_false_iff_ne.2 h
        simp only [upsert, if_neg hp, lookupNode, List.find?, hp1] at ih ⊢
        exact ih

theorem upsert_of_not_mem (l : List (String × MappedIRNode)) (k : String)
    (v : MappedIRNode) (h : k ∉ l.map Prod.fst) : upsert l k v = l ++ [(k, v)] := by
  induction l with
  | nil => rfl
  | cons p rest ih =>
    have h1 : ¬ p.1 = k := fun hc => h (by simp [hc])
    have h2 : k ∉ rest.map Prod.fst := fun hc => h (by simp [hc])
    simp [upsert, h1, ih h2]

theorem nonEmptyUnits_ne_nil {cfg : HWConfig} {t : String} {l : List HWUnit}
    (h : nonEmptyUnits cfg t = some l) : l ≠ [] := by
  rw [nonEmptyUnits] at h
  split at h
  · exact absurd h (by simp)
  · next hne =>
    cases h
    intro hc
    rw [hc] at hne
    simp at hne

theorem fallbackCandidates_ne_nil {cfg : HWConfig} {key : String} {l : List HWUnit}
    (h : fallbackCandidates cfg key = some l) : l ≠ [] := by
  rw [fallbackCandidates] at h
  rcases hfb : kFallbacks key with _ | fbs
  · simp [hfb] at h
  · simp only [hfb] at h
    rcases hfind : fbs.find? (fun t => !(unitsOfType cfg t).isEmpty) with _ | t
    · simp [hfind] at h
    · simp only [hfind, Option.some_inj] at h
      subst h
      have hp := List.find?_some hfind
      intro hc
      rw [hc] at hp
      simp at hp

theorem genericCandidates_ne_nil {cfg : HWConfig} {l : List HWUnit}
    (h : genericCandidates cfg = some l) : l ≠ [] := by
  rw [genericCandidates] at h
  rcases hfind : ["GENERIC", "FIELD_COMPUTATION", "ENCODING"].find?
      (fun t => !(unitsOfType cfg t).isEmpty) with _ | t
  · simp [hfind] at h
  · simp only [hfind, Option.some_inj] at h
    subst h
    have hp := List.find?_some hfind
    intro hc
    rw [hc] at hp
    simp at hp

theorem candidatesFor_some_ne_nil (cfg : HWConfig) (raw : String)
    (h : cfg.units ≠ []) :
    ∃ l, candidatesFor cfg raw = some l ∧ l ≠ [] := by
  have hemp : cfg.units.isEmpty = false := by
    cases hcc : cfg.units with
    | nil => exact absurd hcc h
    | cons a l => rfl
  unfold candidatesFor
  rcases h1 : nonEmptyUnits cfg (toUpperStr raw) with _ | l1
  case some => exact ⟨l1, by simp [h1], nonEmptyUnits_ne_nil h1⟩
  case none =>
  rcases hb : isBackwardType (toUpperStr raw) with _ | _
  case false =>
    rcases h3 : fallbackCandidates cfg (toUpperStr raw) with _ | l3
    case some => exact ⟨l3, by simp [h1, hb, h3], fallbackCandidates_ne_nil h3⟩
    case none =>
    rcases h5 : genericCandidates cfg with _ | l5
    case some => exact ⟨l5, by simp [h1, hb, h3, h5], genericCandidates_ne_nil h5⟩
    case none => exact ⟨cfg.units, by simp [h1, hb, h3, h5, hemp], h⟩
  case true =>
    rcases h2 : nonEmptyUnits cfg ((toUpperStr raw).dropRight 4) with _ | l2
    case some => exact ⟨l2, by simp [h1, hb, h2], nonEmptyUnits_ne_nil h2⟩
    case none =>
    rcases h3 : fallbackCandidates cfg (toUpperStr raw) with _ | l3
    case some => exact ⟨l3, by simp [h1, hb, h2, h3], fallbackCandidates_ne_nil h3⟩
    case none =>
    rcases h4 : fallbackCandidates cfg ((toUpperStr raw).dropRight 4) with _ | l4
    case some => exact ⟨l4, by simp [h1, hb, h2, h3, h4], fallbackCandidates_ne_nil h4⟩
    case none =>
    rcases h5 : genericCandidates cfg with _ | l5
    case some => exact ⟨l5, by simp [h1, hb, h2, h3, h4, h5], genericCandidates_ne_nil h5⟩
    case none => exact ⟨cfg.units, by simp [h1, hb, h2, h3, h4, h5, hemp], h⟩

theorem selectUnit_some (cfg : HWConfig) (raw : String) (h : cfg.units ≠ []) :
    ∃ u, selectUnit cfg raw = some u := by
  obtain ⟨l, hl, hne⟩ := candidatesFor_some_ne_nil cfg raw h
  cases l with
  | nil => exact absurd rfl hne
  | cons a rest => exact ⟨a, by rw [selectUnit, hl]; rfl⟩

theorem mapOne_some (cfg : HWConfig) (node : OperatorNode) (h : cfg.units ≠ []) :
    ∃ mn, mapOne cfg node = some mn := by
  obtain ⟨u, hu⟩ := selectUnit_some cfg node.op_type h
  exact ⟨_, by rw [mapOne, hu]; rfl⟩

/-- The per-node fold of `map_operator_graph`, abstracted for the proof. -/
theorem map_fold_characterization (cfg : HWConfig) (h : cfg.units ≠ []) :
    ∀ (nodes : List OperatorNode) (init : List (String × MappedIRNode)),
    ∃ m,
      nodes.foldl
        (fun (acc : Option (List (String × MappedIRNode))) node =>
          acc.bind (fun mm => (mapOne cfg node).map (fun mn => upsert mm node.id mn)))
        (some init) = some m ∧
      (∀ id, lookupNode m id =
        (match nodes.reverse.find? (fun n => n.id == id) with
         | some n => mapOne cfg n
         | none => lookupNode init id)) ∧
      ((init.map Prod.fst ++ nodes.map (fun n => n.id)).Nodup →
        m.map Prod.fst = init.map Prod.fst ++ nodes.map (fun n => n.id)) := by
  intro nodes
  induction nodes with
  | nil =>
    intro init
    exact ⟨init, rfl, by intro id; simp, by intro _; simp⟩
  | cons n rest ih =>
    intro init
    obtain ⟨mn, hmn⟩ := mapOne_some cfg n h
    obtain ⟨m, hm, hlook, hkeys⟩ := ih (upsert init n.id mn)
    refine ⟨m, ?_, ?_, ?_⟩
    · rw [List.foldl_cons, hmn]
      exact hm
    · intro id
      rw [hlook id]
      rw [List.reverse_cons, List.find?_append]
      rcases hfr : rest.reverse.find? (fun nn => nn.id == id) with _ | nn
      · simp only [hfr, Option.none_or]
        rw [lookupNode_upsert]
        by_cases hid : n.id = id
        · have hbeq : (n.id == id) = true := beq_iff_eq.2 hid
          simp only [List.find?, hbeq, if_pos hid.symm]
          exact hmn.symm
        · have hbeq : (n.id == id) = false := beq_eq_false_iff_ne.2 hid
          simp only [List.find?, hbeq]
          exact if_neg (fun hc => hid hc.symm)
      · simp [hfr]
    · intro hnd
      have hnd' := hnd
      rw [List.map_cons, List.nodup_append] at hnd'
      have hnotmem : n.id ∉ init.map Prod.fst := fun hc =>
        hnd'.2.2 hc (by simp)
      have hup : upsert init n.id mn = init ++ [(n.id, mn)] :=
        upsert_of_not_mem _ _ _ hnotmem
      have hkeys2 : (upsert init n.id mn).map Prod.fst = init.map Prod.fst ++ [n.id] := by
        rw [hup]; simp
      have happ : (upsert init n.id mn).map Prod.fst ++ rest.map (fun nn => nn.id)
          = init.map Prod.fst ++ (n :: rest).map (fun nn => nn.id) := by
        rw [hkeys2]; simp
      rw [hkeys (by rw [happ]; exact hnd), happ]

/-- C10: `map_operator_graph` keys the resulting `MappedIR.nodes` by
operator id, so when two input nodes share an id only the later node (in
`graph.nodes` order) survives; under the precondition that all node ids
are distinct, mapping is complete: the key list equals the input id list
and every input node is found, mapped, under its id. -/
theorem map_keyed_by_id_last_wins (graph : OperatorGraph) (cfg : HWConfig)
    (h : cfg.units ≠ []) :
    ∃ ir, map_operator_graph graph cfg = some ir ∧
      (∀ id, lookupNode ir.nodes id =
        (match graph.nodes.reverse.find? (fun n => n.id == id) with
         | some n => mapOne cfg n
         | none => none)) ∧
      ((graph.nodes.map (fun n => n.id)).Nodup →
        ir.nodes.map Prod.fst = graph.nodes.map (fun n => n.id) ∧
        ∀ n ∈ graph.nodes, lookupNode ir.nodes n.id = mapOne cfg n) := by
  obtain ⟨m, hm, hlook, hkeys⟩ := map_fold_characterization cfg h graph.nodes []
  simp only [map_operator_graph]
  rw [hm]
  refine ⟨_, rfl, ?_, ?_⟩
  · intro id
    rw [hlook id]
    rcases hfr : graph.nodes.reverse.find? (fun n => n.id == id) with _ | nn <;> rfl
  · intro hnd
    constructor
    · have := hkeys (by simpa using hnd)
      simpa using this
    · intro n hn
      have hmem : n ∈ graph.nodes.reverse := List.mem_reverse.2 hn
      have hfr : ∃ nn, graph.nodes.reverse.find? (fun x => x.id == n.id) = some nn := by
        rcases hfr0 : graph.nodes.reverse.find? (fun x => x.id == n.id) with _ | nn
        · rw [List.find?_eq_none] at hfr0
          exact absurd (beq_self_eq_true n.id) (by simpa using hfr0 n hmem)
        · exact ⟨nn, hfr0⟩
      obtain ⟨nn, hnn⟩ := hfr
      have hpred : nn.id = n.id := by
        have := List.find?_some hnn
        simpa using this
      have hnmem : nn ∈ graph.nodes := List.mem_reverse.1 (List.mem_of_find?_eq_some hnn)
      have heq : nn = n := List.inj_on_of_nodup_map hnd hnmem hn hpred
      rw [hlook n.id, hnn, heq]

/-- C10 witness: the theorem applied to a graph whose two nodes share
the id `"n"` and a one-unit config; the characterization shows the later
(`BETA`) node is the one that survives under key `"n"`. -/
theorem map_keyed_by_id_last_wins_witness :
    ∃ ir, map_operator_graph dupIdGraph cfgGeneric = some ir ∧
      (∀ id, lookupNode ir.nodes id =
        (match dupIdGraph.nodes.reverse.find? (fun n => n.id == id) with
         | some n => mapOne cfgGeneric n
         | none => none)) ∧
      ((dupIdGraph.nodes.map (fun n => n.id)).Nodup →
        ir.nodes.map Prod.fst = dupIdGraph.nodes.map (fun n => n.id) ∧
        ∀ n ∈ dupIdGraph.nodes, lookupNode ir.nodes n.id = mapOne cfgGeneric n) :=
  map_keyed_by_id_last_wins dupIdGraph cfgGeneric (by with_unfolding_all decide)

/-! ### Claim C1 (schedule completeness) -/

theorem processOneSucc_fields (score : String → ℚ) (st : SchedState) (u : String) :
    (processOneSucc score st u).entries = st.entries ∧
    (processOneSucc score st u).scheduled = st.scheduled ∧
    (processOneSucc score st u).hwFin = st.hwFin ∧
    (processOneSucc score st u).opFin = st.opFin := by
  rw [processOneSucc]
  split <;> split <;> exact ⟨rfl, rfl, rfl, rfl⟩

theorem processSuccs_fields (score : String → ℚ) (sl : List String) (st : SchedState) :
    (processSuccs score sl st).entries = st.entries ∧
    (processSuccs score sl st).scheduled = st.scheduled ∧
    (processSuccs score sl st).hwFin = st.hwFin ∧
    (processSuccs score sl st).opFin = st.opFin := by
  induction sl generalizing st with
  | nil => exact ⟨rfl, rfl, rfl, rfl⟩
  | cons u us ih =>
    have h1 := processOneSucc_fields score st u
    have h2 := ih (processOneSucc score st u)
    exact ⟨h2.1.trans h1.1, (h2.2.1).trans h1.2.1,
      (h2.2.2.1).trans h1.2.2.1, (h2.2.2.2).trans h1.2.2.2⟩

theorem find?_key {nodes : List (String × OperatorScheduledIRNode)} {v : String}
    {p : String × OperatorScheduledIRNode}
    (h : nodes.find? (fun q => q.1 == v) = some p) : p.1 = v ∧ p ∈ nodes :=
  ⟨by simpa using List.find?_some h, List.mem_of_find?_eq_some h⟩

theorem countInv_scheduleOne {ir : OperatorScheduledIR} {st : SchedState}
    (depsF succsF : String → List String) (score : String → ℚ)
    {v : String} {p : String × OperatorScheduledIRNode} (q' : List PQEntry)
    (h : CountInv ir st) (hsch : v ∉ st.scheduled)
    (hfind : ir.nodes.find? (fun q => q.1 == v) = some p) :
    CountInv ir (scheduleOne depsF succsF score v p.2 q' st) := by
  obtain ⟨hp1, hpmem⟩ := find?_key hfind
  have hvids : v ∈ idsOf ir := by
    rw [← hp1]; exact List.mem_map_of_mem (fun q => q.1) hpmem
  rw [scheduleOne]
  obtain ⟨he, hs, _, _⟩ := processSuccs_fields score (succsF v) _
  constructor
  · intro id hid
    rw [he, hs]
    simp only [List.map_append, List.count_append]
    by_cases hiv : id = v
    · subst hiv
      rw [h.1 id hid, if_neg hsch]
      simp
    · rw [h.1 id hid]
      have hmem : id ∈ (insert v st.scheduled : Finset String) ↔ id ∈ st.scheduled := by
        simp [Finset.mem_insert, hiv]
      simp [hiv, hmem]
  · intro id hid
    rw [he]
    have hiv : id ≠ v := fun hc => hid (hc ▸ hvids)
    simp only [List.map_append, List.count_append]
    rw [h.2 id hid]
    simp [hiv]

theorem mainLoop_countInv (ir : OperatorScheduledIR) (score : String → ℚ) (f : ℕ) :
    ∀ st, CountInv ir st →
      CountInv ir (mainLoop ir.nodes (sysDeps ir) (sysSuccs ir) score f st) := by
  induction f with
  | zero => intro st h; exact h
  | succ f ih =>
    intro st h
    rw [mainLoop]
    split
    · exact h
    · split
      · exact ih _ h
      · next hsch =>
        split
        · exact ih _ h
        · next p hfind =>
          exact ih _ (countInv_scheduleOne _ _ score _ h hsch hfind)

theorem seedOne_fields (score : String → ℚ) (st : SchedState)
    (p : String × OperatorScheduledIRNode) :
    (seedOne score st p).entries = st.entries ∧
    (seedOne score st p).scheduled = st.scheduled ∧
    (seedOne score st p).hwFin = st.hwFin ∧
    (seedOne score st p).opFin = st.opFin ∧
    (seedOne score st p).rem = st.rem := by
  rw [seedOne]
  split <;> exact ⟨rfl, rfl, rfl, rfl, rfl⟩

theorem seed_fold_fields (nodes : List (String × OperatorScheduledIRNode))
    (score : String → ℚ) :
    ∀ st : SchedState,
      (nodes.foldl (seedOne score) st).entries = st.entries ∧
      (nodes.foldl (seedOne score) st).scheduled = st.scheduled ∧
      (nodes.foldl (seedOne score) st).hwFin = st.hwFin ∧
      (nodes.foldl (seedOne score) st).opFin = st.opFin ∧
      (nodes.foldl (seedOne score) st).rem = st.rem := by
  induction nodes with
  | nil => intro st; exact ⟨rfl, rfl, rfl, rfl, rfl⟩
  | cons p rest ih =>
    intro st
    rw [List.foldl_cons]
    have h1 := seedOne_fields score st p
    have h2 := ih (seedOne score st p)
    exact ⟨h2.1.trans h1.1, (h2.2.1).trans h1.2.1, (h2.2.2.1).trans h1.2.2.1,
      (h2.2.2.2.1).trans h1.2.2.2.1, (h2.2.2.2.2).trans h1.2.2.2.2⟩

theorem seedState_countInv (ir : OperatorScheduledIR) (score : String → ℚ) :
    CountInv ir (seedState ir.nodes (sysDeps ir) score) := by
  rw [seedState]
  obtain ⟨he, hs, _, _, _⟩ := seed_fold_fields ir.nodes score _
  constructor
  · intro id _
    rw [he, hs]
    simp
  · intro id _
    rw [he]
    simp

theorem fallback_countInv (ir : OperatorScheduledIR) :
    ∀ st, CountInv ir st → CountInv ir (fallbackSweep ir.nodes st) := by
  have key : ∀ (nodes : List (String × OperatorScheduledIRNode)),
      (∀ p ∈ nodes, p.1 ∈ idsOf ir) →
      ∀ st, CountInv ir st → CountInv ir (fallbackSweep nodes st) := by
    intro nodes
    induction nodes with
    | nil => intro _ st h; exact h
    | cons p rest ih =>
      intro hids st h
      rw [fallbackSweep, List.foldl_cons, fallbackOne]
      have hrest : ∀ q ∈ rest, q.1 ∈ idsOf ir := fun q hq => hids q (by simp [hq])
      have hpid : p.1 ∈ idsOf ir := hids p (by simp)
      by_cases hsch : p.1 ∈ st.scheduled
      · rw [if_pos hsch]
        exact ih hrest st h
      · rw [if_neg hsch]
        refine ih hrest _ ⟨?_, ?_⟩
        · intro id hid
          simp only [List.map_append, List.count_append]
          by_cases hiv : id = p.1
          · subst hiv
            rw [h.1 p.1 hid, if_neg hsch]
            simp
          · rw [h.1 id hid]
            have hmem : id ∈ (insert p.1 st.scheduled : Finset String) ↔
                id ∈ st.scheduled := by simp [Finset.mem_insert, hiv]
            simp [hiv, hmem]
        · intro id hid
          have hiv : id ≠ p.1 := fun hc => hid (hc ▸ hpid)
          simp only [List.map_append, List.count_append]
          rw [h.2 id hid]
          simp [hiv]
  intro st h
  exact key ir.nodes (fun p hp => List.mem_map_of_mem (fun q => q.1) hp) st h

theorem fallback_sched_mono (nodes : List (String × OperatorScheduledIRNode)) :
    ∀ st, st.scheduled ⊆ (fallbackSweep nodes st).scheduled := by
  induction nodes with
  | nil => intro st; exact fun a ha => ha
  | cons p rest ih =>
    intro st
    rw [fallbackSweep, List.foldl_cons, fallbackOne]
    by_cases hsch : p.1 ∈ st.scheduled
    · rw [if_pos hsch]
      exact ih st
    · rw [if_neg hsch]
      intro a ha
      exact ih _ (Finset.mem_insert_of_mem ha)

theorem fallback_covers (nodes : List (String × OperatorScheduledIRNode)) :
    ∀ st, ∀ p ∈ nodes, p.1 ∈ (fallbackSweep nodes st).scheduled := by
  induction nodes with
  | nil => intro st p hp; cases hp
  | cons q rest ih =>
    intro st p hp
    rw [fallbackSweep, List.foldl_cons, fallbackOne]
    rcases List.mem_cons.1 hp with hp | hp
    · subst hp
      by_cases hsch : p.1 ∈ st.scheduled
      · rw [if_pos hsch]
        exact fallback_sched_mono rest st hsch
      · rw [if_neg hsch]
        exact fallback_sched_mono rest _ (Finset.mem_insert_self p.1 _)
    · by_cases hsch : q.1 ∈ st.scheduled
      · rw [if_pos hsch]
        exact ih st p hp
      · rw [if_neg hsch]
        exact ih _ p hp

/-- C1: for every `OperatorScheduledIR` — whatever the shape of the edge
list, including cycles and edges with foreign endpoints — the returned
`SystemSchedule` has exactly one entry per node id: the entry id list is
a permutation of the node-id list. -/
theorem dags_schedule_entries_complete (alpha beta : ℚ) (ir : OperatorScheduledIR)
    (h : (idsOf ir).Nodup) :
    ((systemSchedule alpha beta ir).entries.map (fun e => e.op_id)).Perm (idsOf ir) := by
  rw [systemSchedule]
  by_cases hemp : ir.nodes.isEmpty
  · rw [if_pos hemp]
    have : ir.nodes = [] := List.isEmpty_iff.1 hemp
    simp [idsOf, this]
  · rw [if_neg hemp]
    have h0 := seedState_countInv ir (dagsScore alpha beta ir)
    have h1 := mainLoop_countInv ir (dagsScore alpha beta ir)
      (2 * ir.nodes.length + 1) _ h0
    have h2 := fallback_countInv ir _ h1
    have hcov : ∀ id ∈ idsOf ir,
        id ∈ (fallbackSweep ir.nodes
          (mainLoop ir.nodes (sysDeps ir) (sysSuccs ir) (dagsScore alpha beta ir)
            (2 * ir.nodes.length + 1)
            (seedState ir.nodes (sysDeps ir) (dagsScore alpha beta ir)))).scheduled := by
      intro id hid
      obtain ⟨p, hp, hpid⟩ := List.mem_map.1 hid
      exact hpid ▸ fallback_covers ir.nodes _ p hp
    rw [List.perm_iff_count]
    intro a
    by_cases ha : a ∈ idsOf ir
    · rw [h2.1 a ha, if_pos (hcov a ha)]
      exact (List.count_eq_one_of_mem h ha).symm
    · rw [h2.2 a ha]
      exact (List.count_eq_zero_of_not_mem ha).symm

/-- C1 witness: the completeness theorem applied to a two-node IR whose
edges form a dependency cycle plus an edge with a foreign endpoint, so
the fallback sweep must cover both nodes. -/
theorem dags_schedule_entries_complete_witness :
    ((systemSchedule (3/5) (2/5) cyclicIR).entries.map (fun e => e.op_id)).Perm
      (idsOf cyclicIR) :=
  dags_schedule_entries_complete (3/5) (2/5) cyclicIR (by with_unfolding_all decide)

/-! ### Claim C4 (total_cycles) -/

theorem hwFinInv_scheduleOne (depsF succsF : String → List String)
    (score : String → ℚ) (v : String) (node : OperatorScheduledIRNode)
    (q' : List PQEntry) (st : SchedState) (h : HwFinInv st) :
    HwFinInv (scheduleOne depsF succsF score v node q' st) := by
  rw [scheduleOne]
  obtain ⟨he, _, hw, _⟩ := processSuccs_fields score (succsF v) _
  intro u
  rw [he, hw]
  by_cases hu : u = node.mapped_node.hw_unit
  · right
    refine ⟨_, List.mem_append_right _ (List.mem_singleton_self _), hu.symm, ?_⟩
    simp [hu]
  · rcases h u with h0 | ⟨e, hmem, heu, hval⟩
    · left; simp [hu, h0]
    · right
      exact ⟨e, List.mem_append_left _ hmem, heu, by simp [hu, hval]⟩

theorem mainLoop_hwFinInv (ir : OperatorScheduledIR) (score : String → ℚ) (f : ℕ) :
    ∀ st, HwFinInv st →
      HwFinInv (mainLoop ir.nodes (sysDeps ir) (sysSuccs ir) score f st) := by
  induction f with
  | zero => intro st h; exact h
  | succ f ih =>
    intro st h
    rw [mainLoop]
    split
    · exact h
    · split
      · exact ih _ h
      · split
        · exact ih _ h
        · exact ih _ (hwFinInv_scheduleOne _ _ score _ _ _ _ h)

theorem seedState_hwFinInv (ir : OperatorScheduledIR) (score : String → ℚ) :
    HwFinInv (seedState ir.nodes (sysDeps ir) score) := by
  rw [seedState]
  obtain ⟨_, _, hw, _, _⟩ := seed_fold_fields ir.nodes score _
  intro u
  rw [hw]
  left
  rfl

theorem fallback_hwFinInv (nodes : List (String × OperatorScheduledIRNode)) :
    ∀ st, HwFinInv st → HwFinInv (fallbackSweep nodes st) := by
  induction nodes with
  | nil => intro st h; exact h
  | cons p rest ih =>
    intro st h
    rw [fallbackSweep, List.foldl_cons, fallbackOne]
    by_cases hsch : p.1 ∈ st.scheduled
    · rw [if_pos hsch]
      exact ih st h
    · rw [if_neg hsch]
      apply ih
      intro u
      by_cases hu : u = p.2.mapped_node.hw_unit
      · right
        refine ⟨_, List.mem_append_right _ (List.mem_singleton_self _), hu.symm, ?_⟩
        simp [hu]
      · rcases h u with h0 | ⟨e, hmem, heu, hval⟩
        · left; simp [hu, h0]
        · right
          exact ⟨e, List.mem_append_left _ hmem, heu, by simp [hu, hval]⟩

theorem if_lt_eq_max (a x : ℤ) : (if a < x then x else a) = max a x := by
  rcases le_or_lt x a with h | h
  · rw [if_neg (not_lt.2 h), max_eq_left h]
  · rw [if_pos h, max_eq_right (le_of_lt h)]

theorem foldl_max_ge_init (l : List ℤ) (a : ℤ) : a ≤ l.foldl max a := by
  induction l generalizing a with
  | nil => exact le_refl a
  | cons x xs ih => exact le_trans (le_max_left a x) (ih (max a x))

theorem foldl_max_ge_mem {l : List ℤ} {x : ℤ} (h : x ∈ l) (a : ℤ) :
    x ≤ l.foldl max a := by
  induction l generalizing a with
  | nil => cases h
  | cons y ys ih =>
    rcases List.mem_cons.1 h with h | h
    · subst h
      exact le_trans (le_max_right a x) (foldl_max_ge_init ys _)
    · exact ih h _

theorem foldl_max_le {l : List ℤ} {b : ℤ} (a : ℤ) (ha : a ≤ b)
    (h : ∀ x ∈ l, x ≤ b) : l.foldl max a ≤ b := by
  induction l generalizing a with
  | nil => exact ha
  | cons x xs ih =>
    rw [List.foldl_cons]
    exact ih _ (max_le ha (h x (by simp))) (fun y hy => h y (by simp [hy]))

theorem totalCycles_clamped (st : SchedState) (h : HwFinInv st) :
    totalCyclesOf st =
      (st.entries.map (fun e => e.start_cycle + e.duration)).foldl max 0 := by
  rw [totalCyclesOf]
  have h1 : st.entries.foldl
      (fun a e => if a < e.start_cycle + e.duration then e.start_cycle + e.duration else a) 0
      = (st.entries.map (fun e => e.start_cycle + e.duration)).foldl max 0 := by
    rw [List.foldl_map]
    exact List.foldl_ext _ _ 0 (fun a e _ => if_lt_eq_max a (e.start_cycle + e.duration))
  rw [h1]
  by_cases hz : (st.entries.map (fun e => e.start_cycle + e.duration)).foldl max 0 = 0
  · rw [if_pos hz, hz, ← List.foldl_map]
    apply le_antisymm
    · apply foldl_max_le 0 le_rfl
      intro x hx
      obtain ⟨u, hu, hxu⟩ := List.mem_map.1 hx
      rcases h u with h0 | ⟨e, hmem, heu, hval⟩
      · rw [← hxu, h0]
      · rw [← hxu, hval]
        rw [← hz]
        exact foldl_max_ge_mem (List.mem_map.2 ⟨e, hmem, rfl⟩) 0
    · exact foldl_max_ge_init _ 0
  · rw [if_neg hz]

/-- C4 counterexample: the claim says `total_cycles` equals the maximum
over all entries of `start_cycle + duration` for *every* input.  A
single node of (int32-representable) duration −5 is scheduled at start
0, so that maximum is −5, but the code leaves `total_cycles` at 0 (the
accumulator starts at 0 and the negative finish never wins, and the
empty-fallback branch then maxes nonpositive unit finish times with 0). -/
theorem total_cycles_counterexample :
    (systemSchedule (3/5) (2/5) negTotalIR).entries.map
      (fun e => e.start_cycle + e.duration) = [-5] ∧
    (systemSchedule (3/5) (2/5) negTotalIR).total_cycles = 0 ∧
    (systemSchedule (3/5) (2/5) negTotalIR).total_cycles ≠ -5 := by
  with_unfolding_all decide

/-- C4 as amended: `total_cycles` is the maximum of the entry finish
times *floored at 0* — `foldl max 0` — for every input (so whenever any
entry finishes at a nonnegative cycle, in particular whenever all
durations are nonnegative, it equals the claimed plain maximum); and a
zero-node input yields zero entries and `total_cycles = 0` with no
failure. -/
theorem total_cycles_eq_clamped_max (alpha beta : ℚ) (ir : OperatorScheduledIR) :
    (systemSchedule alpha beta ir).total_cycles =
      ((systemSchedule alpha beta ir).entries.map
        (fun e => e.start_cycle + e.duration)).foldl max 0 ∧
    (ir.nodes = [] → (systemSchedule alpha beta ir).entries = [] ∧
      (systemSchedule alpha beta ir).total_cycles = 0) := by
  constructor
  · rw [systemSchedule]
    by_cases hemp : ir.nodes.isEmpty
    · rw [if_pos hemp]
      rfl
    · rw [if_neg hemp]
      have hinv : HwFinInv (fallbackSweep ir.nodes
          (mainLoop ir.nodes (sysDeps ir) (sysSuccs ir) (dagsScore alpha beta ir)
            (2 * ir.nodes.length + 1)
            (seedState ir.nodes (sysDeps ir) (dagsScore alpha beta ir)))) :=
        fallback_hwFinInv ir.nodes _
          (mainLoop_hwFinInv ir (dagsScore alpha beta ir) _ _
            (seedState_hwFinInv ir (dagsScore alpha beta ir)))
      exact totalCycles_clamped _ hinv
  · intro hnil
    rw [systemSchedule]
    simp [hnil]

/-! ### Claim C2 (exclusive hardware-unit occupancy) -/

theorem dep_fold_nonneg (f : String → ℤ) (l : List String) :
    0 ≤ l.foldl (fun a d => max a (f d)) 0 := by
  rw [← List.foldl_map f max l 0]
  exact foldl_max_ge_init _ 0

theorem occupancyInv_scheduleOne (depsF succsF : String → List String)
    (score : String → ℚ) (v : String) (node : OperatorScheduledIRNode)
    (q' : List PQEntry) (st : SchedState) (h : OccupancyInv st)
    (hd : 0 ≤ node.duration) :
    OccupancyInv (scheduleOne depsF succsF score v node q' st) := by
  obtain ⟨hK, hL, hN, hM⟩ := h
  rw [scheduleOne]
  obtain ⟨he, _, hw, _⟩ := processSuccs_fields score (succsF v) _
  set u0 := node.mapped_node.hw_unit with hu0
  set start := max (st.hwFin u0) ((depsF v).foldl (fun a d => max a (st.opFin d)) 0)
    with hstart
  have hstart_ge : st.hwFin u0 ≤ start := le_max_left _ _
  have hstart_nonneg : 0 ≤ start := le_trans (hL u0) hstart_ge
  have hfin_ge : start ≤ start + node.duration := le_add_of_nonneg_right hd
  refine ⟨?_, ?_, ?_, ?_⟩
  · intro e hmem
    rw [he] at hmem
    rw [hw]
    dsimp only
    rcases List.mem_append.1 hmem with hmem | hmem
    · by_cases hue : e.hw_unit = u0
      · rw [hue, if_pos rfl]
        exact le_trans (le_trans (hue ▸ hK e hmem) hstart_ge) hfin_ge
      · rw [if_neg hue]
        exact hK e hmem
    · rw [List.mem_singleton.1 hmem]
      simp
  · intro u
    rw [hw]
    dsimp only
    by_cases hu : u = u0
    · rw [if_pos hu]
      exact le_trans hstart_nonneg hfin_ge
    · rw [if_neg hu]
      exact hL u
  · intro e hmem
    rw [he] at hmem
    rcases List.mem_append.1 hmem with hmem | hmem
    · exact hN e hmem
    · rw [List.mem_singleton.1 hmem]
      exact hd
  · rw [exclusiveOccupancy, he, List.pairwise_append]
    refine ⟨hM, by simp, ?_⟩
    intro e hmem e' hmem'
    have he' := List.mem_singleton.1 hmem'
    subst he'
    intro hunit hov
    have hunit' : e.hw_unit = u0 := by simpa using hunit
    obtain ⟨t, ht1, ht2, ht3, ht4⟩ := hov
    have ht3a : st.hwFin u0 ≤ t ∧
        List.foldl (fun a d => a ⊔ st.opFin d) 0 (depsF v) ≤ t := by simpa using ht3
    have ht3' : start ≤ t := max_le ht3a.1 ht3a.2
    have hfe : e.start_cycle + e.duration ≤ start :=
      le_trans (hunit' ▸ hK e hmem) hstart_ge
    omega

theorem mainLoop_occupancyInv (ir : OperatorScheduledIR) (score : String → ℚ)
    (hdur : ∀ p ∈ ir.nodes, 0 ≤ p.2.duration) (f : ℕ) :
    ∀ st, OccupancyInv st →
      OccupancyInv (mainLoop ir.nodes (sysDeps ir) (sysSuccs ir) score f st) := by
  induction f with
  | zero => intro st h; exact h
  | succ f ih =>
    intro st h
    rw [mainLoop]
    split
    · exact h
    · split
      · exact ih _ h
      · split
        · exact ih _ h
        · next p hfind =>
          exact ih _ (occupancyInv_scheduleOne _ _ score _ _ _ _ h
            (hdur p (find?_key hfind).2))

theorem seedState_occupancyInv (ir : OperatorScheduledIR) (score : String → ℚ) :
    OccupancyInv (seedState ir.nodes (sysDeps ir) score) := by
  rw [seedState]
  obtain ⟨he, _, hw, _, _⟩ := seed_fold_fields ir.nodes score _
  refine ⟨?_, ?_, ?_, ?_⟩
  · intro e hmem
    rw [he] at hmem
    cases hmem
  · intro u
    rw [hw]
  · intro e hmem
    rw [he] at hmem
    cases hmem
  · rw [exclusiveOccupancy, he]
    exact List.Pairwise.nil

theorem fallback_occupancyInv (ir : OperatorScheduledIR)
    (hdur : ∀ p ∈ ir.nodes, 0 ≤ p.2.duration) :
    ∀ (nodes : List (String × OperatorScheduledIRNode)),
      (∀ p ∈ nodes, p ∈ ir.nodes) →
      ∀ st, OccupancyInv st → OccupancyInv (fallbackSweep nodes st) := by
  intro nodes
  induction nodes with
  | nil => intro _ st h; exact h
  | cons p rest ih =>
    intro hsub st h
    obtain ⟨hK, hL, hN, hM⟩ := h
    rw [fallbackSweep, List.foldl_cons, fallbackOne]
    have hrest : ∀ q ∈ rest, q ∈ ir.nodes := fun q hq => hsub q (by simp [hq])
    have hd : 0 ≤ p.2.duration := hdur p (hsub p (by simp))
    by_cases hsch : p.1 ∈ st.scheduled
    · rw [if_pos hsch]
      exact ih hrest st ⟨hK, hL, hN, hM⟩
    · rw [if_neg hsch]
      apply ih hrest
      refine ⟨?_, ?_, ?_, ?_⟩
      · intro e hmem
        dsimp only at hmem ⊢
        rcases List.mem_append.1 hmem with hmem | hmem
        · by_cases hue : e.hw_unit = p.2.mapped_node.hw_unit
          · rw [hue, if_pos rfl]
            exact le_trans (hue ▸ hK e hmem) (le_add_of_nonneg_right hd)
          · rw [if_neg hue]
            exact hK e hmem
        · rw [List.mem_singleton.1 hmem]
          simp
      · intro u
        dsimp only
        by_cases hu : u = p.2.mapped_node.hw_unit
        · rw [if_pos hu]
          exact le_trans (hL _) (le_add_of_nonneg_right hd)
        · rw [if_neg hu]
          exact hL u
      · intro e hmem
        dsimp only at hmem
        rcases List.mem_append.1 hmem with hmem | hmem
        · exact hN e hmem
        · rw [List.mem_singleton.1 hmem]
          exact hd
      · rw [exclusiveOccupancy]
        dsimp only
        rw [List.pairwise_append]
        refine ⟨hM, by simp, ?_⟩
        intro e hmem e' hmem'
        have he' := List.mem_singleton.1 hmem'
        subst he'
        intro hunit hov
        have hunit' : e.hw_unit = p.2.mapped_node.hw_unit := by simpa using hunit
        obtain ⟨t, ht1, ht2, ht3, ht4⟩ := hov
        have ht3' : st.hwFin p.2.mapped_node.hw_unit ≤ t := by simpa using ht3
        have hfe : e.start_cycle + e.duration ≤ st.hwFin p.2.mapped_node.hw_unit :=
          hunit' ▸ hK e hmem
        omega

/-- C2 counterexample: with an (int32-representable) negative duration
in the input IR, the unit finish time can move backwards and a later
operator is placed inside an earlier operator's occupancy window.  On
`negDurIR` (three independent ops on unit `U` with durations 10, −1, 1)
the schedule places `xa` on `[0,10)` and `xc` on `[9,10)` — cycle 9 is
occupied by both, so the claim fails for this input. -/
theorem dags_overlap_counterexample :
    ¬ exclusiveOccupancy (systemSchedule (3/5) (2/5) negDurIR).entries := by
  intro hocc
  have hent : (systemSchedule (3/5) (2/5) negDurIR).entries =
      [{ op_id := "xa", hw_unit := "U", start_cycle := 0, duration := 10,
         resource_utilization := 1 },
       { op_id := "xb", hw_unit := "U", start_cycle := 10, duration := -1,
         resource_utilization := 1 },
       { op_id := "xc", hw_unit := "U", start_cycle := 9, duration := 1,
         resource_utilization := 1 }] := by
    with_unfolding_all decide
  rw [hent, exclusiveOccupancy] at hocc
  have h1 := (List.pairwise_cons.1 hocc).1
    { op_id := "xc", hw_unit := "U", start_cycle := 9, duration := 1,
      resource_utilization := 1 } (by simp)
  exact h1 rfl ⟨9, by norm_num, by norm_num, by norm_num, by norm_num⟩

/-- C2 as amended: for every input IR whose durations are all
nonnegative — every IR the upstream pipeline can produce — any two
distinct entries on the same hardware unit occupy disjoint
`[start, start+duration)` windows, including when the cyclic/orphan
fallback sweep fires. -/
theorem dags_no_overlap_of_nonneg_durations (alpha beta : ℚ)
    (ir : OperatorScheduledIR)
    (hdur : ∀ p ∈ ir.nodes, 0 ≤ p.2.duration) :
    exclusiveOccupancy (systemSchedule alpha beta ir).entries := by
  rw [systemSchedule]
  by_cases hemp : ir.nodes.isEmpty
  · rw [if_pos hemp]
    rw [exclusiveOccupancy]
    exact List.Pairwise.nil
  · rw [if_neg hemp]
    have hocc := fallback_occupancyInv ir hdur ir.nodes (fun p hp => hp)
      (mainLoop ir.nodes (sysDeps ir) (sysSuccs ir) (dagsScore alpha beta ir)
        (2 * ir.nodes.length + 1)
        (seedState ir.nodes (sysDeps ir) (dagsScore alpha beta ir)))
      (mainLoop_occupancyInv ir (dagsScore alpha beta ir) hdur
        (2 * ir.nodes.length + 1)
        (seedState ir.nodes (sysDeps ir) (dagsScore alpha beta ir))
        (seedState_occupancyInv ir (dagsScore alpha beta ir)))
    exact hocc.2.2.2

/-- C2 witness: the no-overlap theorem applied to the cyclic two-node IR
(where the fallback sweep fires), whose durations are nonnegative. -/
theorem dags_no_overlap_witness :
    exclusiveOccupancy (systemSchedule (3/5) (2/5) cyclicIR).entries :=
  dags_no_overlap_of_nonneg_durations (3/5) (2/5) cyclicIR
    (by with_unfolding_all decide)

/-! ### Claim C3 (dependency ordering) -/

theorem sysFilteredEdges_mem_ids {ir : OperatorScheduledIR} {e : String × String}
    (h : e ∈ sysFilteredEdges ir) : e.1 ∈ idsOf ir ∧ e.2 ∈ idsOf ir := by
  have hc := (List.mem_filter.1 h).2
  simp only [Bool.and_eq_true] at hc
  exact ⟨List.mem_of_elem_eq_true hc.1, List.mem_of_elem_eq_true hc.2⟩

theorem mem_sysDeps {ir : OperatorScheduledIR} {u p : String} :
    p ∈ sysDeps ir u ↔ (p, u) ∈ sysFilteredEdges ir := by
  rw [sysDeps, List.mem_filterMap]
  constructor
  · rintro ⟨e, he, hfe⟩
    by_cases h2 : e.2 = u
    · rw [if_pos h2] at hfe
      obtain rfl := Option.some.inj hfe
      have he' : e = (e.1, u) := by cases e; simp_all
      exact he' ▸ he
    · rw [if_neg h2] at hfe
      cases hfe
  · intro h
    exact ⟨(p, u), h, by simp⟩

theorem mem_sysSuccs {ir : OperatorScheduledIR} {v u : String} :
    u ∈ sysSuccs ir v ↔ (v, u) ∈ sysFilteredEdges ir := by
  rw [sysSuccs, List.mem_filterMap]
  constructor
  · rintro ⟨e, he, hfe⟩
    by_cases h1 : e.1 = v
    · rw [if_pos h1] at hfe
      obtain rfl := Option.some.inj hfe
      have he' : e = (v, e.2) := by cases e; simp_all
      exact he' ▸ he
    · rw [if_neg h1] at hfe
      cases hfe
  · intro h
    exact ⟨(v, u), h, by simp⟩

theorem count_sysSuccs_eq_count_sysDeps (ir : OperatorScheduledIR) (v u : String) :
    (sysSuccs ir v).count u = (sysDeps ir u).count v := by
  rw [sysSuccs, sysDeps]
  generalize sysFilteredEdges ir = E
  induction E with
  | nil => rfl
  | cons e E ih =>
    simp only [List.filterMap_cons]
    by_cases h1 : e.1 = v <;> by_cases h2 : e.2 = u <;>
      simp [h1, h2, List.count_cons, ih]

theorem length_filter_not_mem_insert (sched : Finset String) (v : String)
    (hv : v ∉ sched) (l : List String) :
    (l.filter (fun p => !(decide (p ∈ sched)))).length =
      (l.filter (fun p => !(decide (p ∈ insert v sched)))).length + l.count v := by
  induction l with
  | nil => rfl
  | cons p l ih =>
    by_cases hpv : p = v
    · subst hpv
      have h1 : p ∈ insert p sched := Finset.mem_insert_self p sched
      simp only [List.filter_cons, List.count_cons]
      simp [hv, h1, ih]
      omega
    · by_cases hps : p ∈ sched
      · have h1 : p ∈ insert v sched := Finset.mem_insert_of_mem hps
        simp only [List.filter_cons, List.count_cons]
        simp [hps, h1, hpv, ih]
      · have h1 : p ∉ insert v sched := by
          simp [Finset.mem_insert, hpv, hps]
        simp only [List.filter_cons, List.count_cons]
        simp [hps, h1, hpv, ih]
        omega

theorem remTarget_nonneg (ir : OperatorScheduledIR) (sched : Finset String)
    (u : String) : 0 ≤ remTarget ir sched u :=
  Int.natCast_nonneg _

theorem remTarget_insert (ir : OperatorScheduledIR) {sched : Finset String}
    {v : String} (hv : v ∉ sched) (u : String) :
    remTarget ir sched u =
      remTarget ir (insert v sched) u + ((sysDeps ir u).count v : ℤ) := by
  rw [remTarget, remTarget, length_filter_not_mem_insert sched v hv (sysDeps ir u)]
  push_cast
  ring

theorem remTarget_eq_zero {ir : OperatorScheduledIR} {sched : Finset String}
    {u : String} (h : remTarget ir sched u = 0) :
    ∀ p ∈ sysDeps ir u, p ∈ sched := by
  intro p hp
  rw [remTarget] at h
  have hlen : ((sysDeps ir u).filter (fun x => !(decide (x ∈ sched)))).length = 0 := by
    exact_mod_cast h
  have hnil := List.length_eq_zero.1 hlen
  have hx := List.filter_eq_nil_iff.1 hnil p hp
  simpa using hx

theorem dep_fold_ge_mem (f : String → ℤ) {l : List String} {d : String}
    (hd : d ∈ l) : f d ≤ l.foldl (fun a x => max a (f x)) 0 := by
  rw [← List.foldl_map f max l 0]
  exact foldl_max_ge_mem (List.mem_map_of_mem f hd) 0

theorem popMax_some {q : List PQEntry} {e : PQEntry} {q' : List PQEntry}
    (h : popMax q = some (e, q')) : e ∈ q ∧ q' = q.erase e := by
  rw [popMax] at h
  rcases harg : q.argmax pqKey with _ | m
  · rw [harg] at h
    cases h
  · rw [harg] at h
    simp only [Option.some.injEq, Prod.mk.injEq] at h
    obtain ⟨h1, h2⟩ := h
    subst h1
    subst h2
    exact ⟨List.argmax_mem harg, rfl⟩

theorem fallbackSweep_eq_self :
    ∀ (nodes : List (String × OperatorScheduledIRNode)) (st : SchedState),
      (∀ p ∈ nodes, p.1 ∈ st.scheduled) → fallbackSweep nodes st = st := by
  intro nodes
  induction nodes with
  | nil => intro st _; rfl
  | cons p rest ih =>
    intro st hall
    rw [fallbackSweep, List.foldl_cons, fallbackOne,
      if_pos (hall p (List.mem_cons_self p rest))]
    exact ih st (fun q hq => hall q (List.mem_cons_of_mem p hq))

theorem processOneSucc_step (ir : OperatorScheduledIR) (score : String → ℚ)
    (sched : Finset String) (u0 : String) (rest : List String) (st : SchedState)
    (hsched : st.scheduled = sched)
    (hids0 : u0 ∈ idsOf ir)
    (hrem : ∀ u, st.rem u = remTarget ir sched u + ((u0 :: rest).count u : ℤ))
    (hready : ReadyInv ir st) (hsse : SchedSubEnqInv st) (henq : EnqueuedInv st)
    (hqid : QueueIdsInv ir st) (hqse : QueueSubEnqInv st) (hpd : PredsDoneInv ir st) :
    (processOneSucc score st u0).scheduled = sched ∧
    (∀ u, (processOneSucc score st u0).rem u =
      remTarget ir sched u + (rest.count u : ℤ)) ∧
    ReadyInv ir (processOneSucc score st u0) ∧
    SchedSubEnqInv (processOneSucc score st u0) ∧
    EnqueuedInv (processOneSucc score st u0) ∧
    QueueIdsInv ir (processOneSucc score st u0) ∧
    QueueSubEnqInv (processOneSucc score st u0) ∧
    PredsDoneInv ir (processOneSucc score st u0) ∧
    (processOneSucc score st u0).queue.length +
        ((idsOf ir).toFinset \ (processOneSucc score st u0).enqueued).card =
      st.queue.length + ((idsOf ir).toFinset \ st.enqueued).card := by
  have hrt0 := remTarget_nonneg ir sched u0
  have hr0 : st.rem u0 = remTarget ir sched u0 + (rest.count u0 : ℤ) + 1 := by
    have hh := hrem u0
    rw [List.count_cons_self] at hh
    push_cast at hh
    omega
  have hpos : 0 < st.rem u0 := by omega
  have hrem' : ∀ u, (if u = u0 then st.rem u0 - 1 else st.rem u) =
      remTarget ir sched u + (rest.count u : ℤ) := by
    intro u
    by_cases hu : u = u0
    · subst hu
      rw [if_pos rfl, hr0]
      ring
    · rw [if_neg hu]
      have hcc := hrem u
      rw [List.count_cons_of_ne hu] at hcc
      exact hcc
  have hchar : processOneSucc score st u0 =
      if st.rem u0 - 1 = 0 ∧ u0 ∉ st.scheduled ∧ u0 ∉ st.enqueued then
        { st with
          rem := fun x => if x = u0 then st.rem u0 - 1 else st.rem x,
          queue := (score u0, u0) :: st.queue,
          enqueued := insert u0 st.enqueued }
      else
        { st with rem := fun x => if x = u0 then st.rem u0 - 1 else st.rem x } := by
    simp only [processOneSucc]
    rw [if_pos hpos]
  rw [hchar]
  by_cases hc : st.rem u0 - 1 = 0 ∧ u0 ∉ st.scheduled ∧ u0 ∉ st.enqueued
  · rw [if_pos hc]
    refine ⟨hsched, hrem', ?_, ?_, ?_, ?_, ?_, ?_, ?_⟩
    · -- ReadyInv
      intro u hu hz
      by_cases huu : u = u0
      · subst huu
        exact Finset.mem_insert_self u st.enqueued
      · have hz' : (if u = u0 then st.rem u0 - 1 else st.rem u) = 0 := hz
        rw [if_neg huu] at hz'
        exact Finset.mem_insert_of_mem (hready u hu hz')
    · -- SchedSubEnqInv
      intro u hu
      exact Finset.mem_insert_of_mem (hsse u hu)
    · -- EnqueuedInv
      intro u hu
      have hu' : u ∈ insert u0 st.enqueued := hu
      rcases Finset.mem_insert.1 hu' with rfl | hu''
      · exact Or.inr (by simp)
      · rcases henq u hu'' with hs | hqm
        · exact Or.inl hs
        · refine Or.inr ?_
          show u ∈ ((score u0, u0) :: st.queue).map (fun x => x.2)
          rw [List.map_cons]
          exact List.mem_cons_of_mem _ hqm
    · -- QueueIdsInv
      intro x hx
      have hx' : x ∈ (score u0, u0) :: st.queue := hx
      rcases List.mem_cons.1 hx' with rfl | hx''
      · exact hids0
      · exact hqid x hx''
    · -- QueueSubEnqInv
      intro x hx
      have hx' : x ∈ (score u0, u0) :: st.queue := hx
      rcases List.mem_cons.1 hx' with rfl | hx''
      · exact Finset.mem_insert_self _ _
      · exact Finset.mem_insert_of_mem (hqse x hx'')
    · -- PredsDoneInv
      intro u hu y hy
      have hu' : u ∈ insert u0 st.enqueued := hu
      rcases Finset.mem_insert.1 hu' with rfl | hu''
      · have hz : remTarget ir sched u = 0 := by omega
        show y ∈ st.scheduled
        rw [hsched]
        exact remTarget_eq_zero hz y hy
      · exact hpd u hu'' y hy
    · -- measure bookkeeping
      have hu0m : u0 ∈ (idsOf ir).toFinset \ st.enqueued :=
        Finset.mem_sdiff.2 ⟨List.mem_toFinset.2 hids0, hc.2.2⟩
    
      have hsd : (idsOf ir).toFinset \ insert u0 st.enqueued =
          ((idsOf ir).toFinset \ st.enqueued).erase u0 := by
        ext a
        simp only [Finset.mem_sdiff, Finset.mem_erase, Finset.mem_insert]
        tauto
      show ((score u0, u0) :: st.queue).length +
          ((idsOf ir).toFinset \ insert u0 st.enqueued).card =
        st.queue.length + ((idsOf ir).toFinset \ st.enqueued).card
      rw [List.length_cons, hsd, Finset.card_erase_of_mem hu0m]
      have hcpos := Finset.card_pos.2 ⟨u0, hu0m⟩
      omega
  · rw [if_neg hc]
    refine ⟨hsched, hrem', ?_, hsse, henq, hqid, hqse, hpd, rfl⟩
    -- ReadyInv in the no-push branch
    intro u hu hz
    by_cases huu : u = u0
    · subst huu
      have hz' : (if u = u then st.rem u - 1 else st.rem u) = 0 := hz
      rw [if_pos rfl] at hz'
      have hor : u ∈ st.scheduled ∨ u ∈ st.enqueued := by tauto
      rcases hor with hs | he
      · exact hsse u hs
      · exact he
    · have hz' : (if u = u0 then st.rem u0 - 1 else st.rem u) = 0 := hz
      rw [if_neg huu] at hz'
      exact hready u hu hz'

theorem processSuccs_step (ir : OperatorScheduledIR) (score : String → ℚ)
    (sched : Finset String) :
    ∀ (sl : List String) (st : SchedState),
      st.scheduled = sched →
      (∀ u ∈ sl, u ∈ idsOf ir) →
      (∀ u, st.rem u = remTarget ir sched u + (sl.count u : ℤ)) →
      ReadyInv ir st → SchedSubEnqInv st → EnqueuedInv st →
      QueueIdsInv ir st → QueueSubEnqInv st → PredsDoneInv ir st →
      (∀ u, (processSuccs score sl st).rem u = remTarget ir sched u) ∧
      ReadyInv ir (processSuccs score sl st) ∧
      SchedSubEnqInv (processSuccs score sl st) ∧
      EnqueuedInv (processSuccs score sl st) ∧
      QueueIdsInv ir (processSuccs score sl st) ∧
      QueueSubEnqInv (processSuccs score sl st) ∧
      PredsDoneInv ir (processSuccs score sl st) ∧
      (processSuccs score sl st).queue.length +
          ((idsOf ir).toFinset \ (processSuccs score sl st).enqueued).card =
        st.queue.length + ((idsOf ir).toFinset \ st.enqueued).card := by
  intro sl
  induction sl with
  | nil =>
    intro st hsched hids hrem hready hsse henq hqid hqse hpd
    refine ⟨?_, hready, hsse, henq, hqid, hqse, hpd, rfl⟩
    intro u
    have hh := hrem u
    simpa using hh
  | cons u0 rest ih =>
    intro st hsched hids hrem hready hsse henq hqid hqse hpd
    obtain ⟨s1, r1, rd1, ss1, en1, qi1, qs1, pd1, m1⟩ :=
      processOneSucc_step ir score sched u0 rest st hsched
        (hids u0 (List.mem_cons_self u0 rest)) hrem hready hsse henq hqid hqse hpd
    obtain ⟨r2, rd2, ss2, en2, qi2, qs2, pd2, m2⟩ :=
      ih (processOneSucc score st u0) s1
        (fun u hu => hids u (List.mem_cons_of_mem u0 hu)) r1 rd1 ss1 en1 qi1 qs1 pd1
    have hfold : processSuccs score (u0 :: rest) st =
        processSuccs score rest (processOneSucc score st u0) := rfl
    rw [hfold]
    exact ⟨r2, rd2, ss2, en2, qi2, qs2, pd2, by rw [m2, m1]⟩

theorem depInv_scheduleOne (ir : OperatorScheduledIR) (score : String → ℚ)
    {st : SchedState} {v : String} (node : OperatorScheduledIRNode)
    {q' : List PQEntry}
    (h : DepInv ir st) (hsch : v ∉ st.scheduled) (hvenq : v ∈ st.enqueued)
    (hq'sub : ∀ x ∈ q', x ∈ st.queue)
    (hq'keep : ∀ x ∈ st.queue, x.2 ≠ v → x ∈ q') :
    DepInv ir (scheduleOne (sysDeps ir) (sysSuccs ir) score v node q' st) ∧
    (scheduleOne (sysDeps ir) (sysSuccs ir) score v node q' st).queue.length +
        ((idsOf ir).toFinset \
          (scheduleOne (sysDeps ir) (sysSuccs ir) score v node q' st).enqueued).card =
      q'.length + ((idsOf ir).toFinset \ st.enqueued).card := by
  obtain ⟨hopfin, hrem, hready, hsse, henq, hqid, hqse, hpd, hord⟩ := h
  set u0 := node.mapped_node.hw_unit with hu0
  set startv := max (st.hwFin u0)
    ((sysDeps ir v).foldl (fun a d => max a (st.opFin d)) 0) with hstartv
  set finv := startv + node.duration with hfinv
  set entryv : SystemScheduleEntry :=
    { op_id := v, hw_unit := u0, start_cycle := startv,
      duration := node.duration, resource_utilization := 1 } with hentryv
  set st1 : SchedState :=
    { queue := q', scheduled := insert v st.scheduled, enqueued := st.enqueued,
      rem := st.rem,
      hwFin := fun u => if u = u0 then finv else st.hwFin u,
      opFin := fun u => if u = v then finv else st.opFin u,
      entries := st.entries ++ [entryv] } with hst1
  have hone : scheduleOne (sysDeps ir) (sysSuccs ir) score v node q' st =
      processSuccs score (sysSuccs ir v) st1 := rfl
  rw [hone]
  obtain ⟨hE, hS, hW, hO⟩ := processSuccs_fields score (sysSuccs ir v) st1
  have hsucc_ids : ∀ u ∈ sysSuccs ir v, u ∈ idsOf ir := fun u hu =>
    (sysFilteredEdges_mem_ids (mem_sysSuccs.1 hu)).2
  have hrem1 : ∀ u, st1.rem u =
      remTarget ir (insert v st.scheduled) u + ((sysSuccs ir v).count u : ℤ) := by
    intro u
    show st.rem u = _
    rw [hrem u, remTarget_insert ir hsch u, count_sysSuccs_eq_count_sysDeps]
  have hready1 : ReadyInv ir st1 := fun u hu hz => hready u hu hz
  have hsse1 : SchedSubEnqInv st1 := by
    intro u hu
    have hu' : u ∈ insert v st.scheduled := hu
    rcases Finset.mem_insert.1 hu' with rfl | hu''
    · exact hvenq
    · exact hsse u hu''
  have henq1 : EnqueuedInv st1 := by
    intro u hu
    rcases henq u hu with hs | hq
    · exact Or.inl (Finset.mem_insert_of_mem hs)
    · obtain ⟨x, hx, hx2⟩ := List.mem_map.1 hq
      by_cases hxv : x.2 = v
      · refine Or.inl ?_
        show u ∈ insert v st.scheduled
        rw [← hx2, hxv]
        exact Finset.mem_insert_self v st.scheduled
      · refine Or.inr ?_
        show u ∈ q'.map (fun y => y.2)
        exact hx2 ▸ List.mem_map_of_mem (fun y => y.2) (hq'keep x hx hxv)
  have hqid1 : QueueIdsInv ir st1 := fun x hx => hqid x (hq'sub x hx)
  have hqse1 : QueueSubEnqInv st1 := fun x hx => hqse x (hq'sub x hx)
  have hpd1 : PredsDoneInv ir st1 := fun u hu y hy =>
    Finset.mem_insert_of_mem (hpd u hu y hy)
  obtain ⟨r2, rd2, ss2, en2, qi2, qs2, pd2, m2⟩ :=
    processSuccs_step ir score (insert v st.scheduled) (sysSuccs ir v) st1 rfl
      hsucc_ids hrem1 hready1 hsse1 henq1 hqid1 hqse1 hpd1
  refine ⟨⟨?_, ?_, rd2, ss2, en2, qi2, qs2, pd2, ?_⟩, m2⟩
  · -- OpFinInv
    intro u hu
    rw [hS] at hu
    rw [hE, hO]
    have hu' : u ∈ insert v st.scheduled := hu
    rcases Finset.mem_insert.1 hu' with hcase | hu''
    · refine ⟨entryv, ?_, ?_, ?_⟩
      · show entryv ∈ st.entries ++ [entryv]
        simp
      · show entryv.op_id = u
        exact hcase.symm
      · show (if u = v then finv else st.opFin u) = entryv.start_cycle + entryv.duration
        rw [if_pos hcase]
    · have huv : u ≠ v := fun hcol => hsch (hcol ▸ hu'')
      obtain ⟨x, hx, hx1, hx2⟩ := hopfin u hu''
      refine ⟨x, ?_, hx1, ?_⟩
      · show x ∈ st.entries ++ [entryv]
        exact List.mem_append_left _ hx
      · show (if u = v then finv else st.opFin u) = x.start_cycle + x.duration
        rw [if_neg huv]
        exact hx2
  · -- RemInv
    intro u
    rw [hS]
    exact r2 u
  · -- OrdInv
    intro e he ec hec hc2
    rw [hE] at hec ⊢
    have hec' : ec ∈ st.entries ++ [entryv] := hec
    rcases List.mem_append.1 hec' with hecs | hecs
    · obtain ⟨x, hx, hx1, hxle⟩ := hord e he ec hecs hc2
      exact ⟨x, List.mem_append_left _ hx, hx1, hxle⟩
    · obtain rfl := List.mem_singleton.1 hecs
      have hv2 : v = e.2 := hc2
      have hdep : e.1 ∈ sysDeps ir v := by
        rw [hv2]
        exact mem_sysDeps.2 (by cases e; exact he)
      have hs1 : e.1 ∈ st.scheduled := hpd v hvenq e.1 hdep
      obtain ⟨x, hx, hx1, hx2⟩ := hopfin e.1 hs1
      refine ⟨x, List.mem_append_left _ hx, hx1, ?_⟩
      show x.start_cycle + x.duration ≤ startv
      rw [← hx2]
      exact le_trans (dep_fold_ge_mem st.opFin hdep) (le_max_right _ _)

theorem mainLoop_depInv (ir : OperatorScheduledIR) (score : String → ℚ) :
    ∀ (f : ℕ) (st : SchedState), DepInv ir st → loopMeasure ir st ≤ f →
      DepInv ir (mainLoop ir.nodes (sysDeps ir) (sysSuccs ir) score f st) ∧
      (mainLoop ir.nodes (sysDeps ir) (sysSuccs ir) score f st).queue = [] := by
  intro f
  induction f with
  | zero =>
    intro st h hm
    rw [loopMeasure] at hm
    refine ⟨h, ?_⟩
    have hq : st.queue.length = 0 := by omega
    exact List.length_eq_zero.1 hq
  | succ f ih =>
    intro st h hm
    rw [loopMeasure] at hm
    rw [mainLoop]
    split
    · next hpop =>
      refine ⟨h, ?_⟩
      rw [popMax] at hpop
      rcases harg : st.queue.argmax pqKey with _ | m
      · exact List.argmax_eq_none.1 harg
      · rw [harg] at hpop
        cases hpop
    · next e q' hpop =>
      obtain ⟨hein, hq'⟩ := popMax_some hpop
      have hlen : q'.length = st.queue.length - 1 := by
        rw [hq']
        exact List.length_erase_of_mem hein
      have hqpos : 0 < st.queue.length := List.length_pos.2 (List.ne_nil_of_mem hein)
      split
      · next hsch =>
        obtain ⟨hopfin, hrem, hready, hsse, henq, hqid, hqse, hpd, hord⟩ := h
        have h' : DepInv ir { st with queue := q' } := by
          refine ⟨hopfin, hrem, hready, hsse, ?_, ?_, ?_, hpd, hord⟩
          · intro u hu
            rcases henq u hu with hs | hq
            · exact Or.inl hs
            · obtain ⟨x, hx, hx2⟩ := List.mem_map.1 hq
              by_cases hxe : x.2 = e.2
              · refine Or.inl ?_
                show u ∈ st.scheduled
                rw [← hx2, hxe]
                exact hsch
              · have hne : x ≠ e := fun hcol => hxe (by rw [hcol])
                refine Or.inr ?_
                show u ∈ q'.map (fun y => y.2)
                have hxq : x ∈ q' := by
                  rw [hq']
                  exact (List.mem_erase_of_ne hne).2 hx
                exact hx2 ▸ List.mem_map_of_mem (fun y => y.2) hxq
          · intro x hx
            refine hqid x ?_
            have hx' : x ∈ q' := hx
            rw [hq'] at hx'
            exact List.mem_of_mem_erase hx'
          · intro x hx
            refine hqse x ?_
            have hx' : x ∈ q' := hx
            rw [hq'] at hx'
            exact List.mem_of_mem_erase hx'
        refine ih _ h' ?_
        rw [loopMeasure]
        show q'.length + ((idsOf ir).toFinset \ st.enqueued).card ≤ f
        omega
      · next hsch =>
        split
        · next hfind =>
          exfalso
          have hqid := h.2.2.2.2.2.1
          have hids : e.2 ∈ idsOf ir := hqid e hein
          obtain ⟨pr, hpr, hpr1⟩ := List.mem_map.1 hids
          have hnone := List.find?_eq_none.1 hfind pr hpr
          exact hnone (by simpa using hpr1)
        · next pr hfind =>
          have hvenq : e.2 ∈ st.enqueued := h.2.2.2.2.2.2.1 e hein
          have hq'sub : ∀ x ∈ q', x ∈ st.queue := by
            intro x hx
            rw [hq'] at hx
            exact List.mem_of_mem_erase hx
          have hq'keep : ∀ x ∈ st.queue, x.2 ≠ e.2 → x ∈ q' := by
            intro x hx hxne
            rw [hq']
            exact (List.mem_erase_of_ne (fun hcol => hxne (by rw [hcol]))).2 hx
          obtain ⟨hdep', hmeas'⟩ :=
            depInv_scheduleOne ir score pr.2 h hsch hvenq hq'sub hq'keep
          refine ih _ hdep' ?_
          rw [loopMeasure]
          rw [hmeas']
          omega

theorem drained_all_scheduled (ir : OperatorScheduledIR) (rank : String → ℕ)
    (htopo : isTopoRank ir rank) {st : SchedState}
    (hq : st.queue = []) (h : DepInv ir st) :
    ∀ u ∈ idsOf ir, u ∈ st.scheduled := by
  obtain ⟨hopfin, hrem, hready, hsse, henq, hqid, hqse, hpd, hord⟩ := h
  have key : ∀ n : ℕ, ∀ u, u ∈ idsOf ir → rank u < n → u ∈ st.scheduled := by
    intro n
    induction n with
    | zero =>
      intro u _ hlt
      exact absurd hlt (Nat.not_lt_zero _)
    | succ n ih =>
      intro u hu hlt
      have hdeps : ∀ d ∈ sysDeps ir u, d ∈ st.scheduled := by
        intro d hd
        have hedge : (d, u) ∈ sysFilteredEdges ir := mem_sysDeps.1 hd
        have hdid : d ∈ idsOf ir := (sysFilteredEdges_mem_ids hedge).1
        have hr : rank d < rank u := htopo (d, u) hedge
        exact ih d hdid (by omega)
      have hrt : remTarget ir st.scheduled u = 0 := by
        rw [remTarget]
        have hnil : (sysDeps ir u).filter
            (fun x => !(decide (x ∈ st.scheduled))) = [] := by
          rw [List.filter_eq_nil_iff]
          intro x hx
          simp [hdeps x hx]
        rw [hnil]
        rfl
      have hz : st.rem u = 0 := by rw [hrem u, hrt]
      have hue : u ∈ st.enqueued := hready u hu hz
      rcases henq u hue with hs | hqm
      · exact hs
      · rw [hq] at hqm
        simp at hqm
  intro u hu
  exact key (rank u + 1) u hu (Nat.lt_succ_self _)

theorem seed_fold_depInv (ir : OperatorScheduledIR) (score : String → ℚ) :
    ∀ (l : List (String × OperatorScheduledIRNode)) (st : SchedState),
      (∀ p ∈ l, p.1 ∈ idsOf ir) →
      RemInv ir st →
      SchedSubEnqInv st → EnqueuedInv st → QueueIdsInv ir st →
      QueueSubEnqInv st → PredsDoneInv ir st →
      SchedSubEnqInv (l.foldl (seedOne score) st) ∧
      EnqueuedInv (l.foldl (seedOne score) st) ∧
      QueueIdsInv ir (l.foldl (seedOne score) st) ∧
      QueueSubEnqInv (l.foldl (seedOne score) st) ∧
      PredsDoneInv ir (l.foldl (seedOne score) st) ∧
      (∀ p ∈ l, st.rem p.1 = 0 → p.1 ∈ (l.foldl (seedOne score) st).enqueued) ∧
      (∀ u ∈ st.enqueued, u ∈ (l.foldl (seedOne score) st).enqueued) ∧
      (l.foldl (seedOne score) st).queue.length ≤ st.queue.length + l.length := by
  intro l
  induction l with
  | nil =>
    intro st _ _ hsse henq hqid hqse hpd
    refine ⟨hsse, henq, hqid, hqse, hpd, ?_, fun u hu => hu, by simp⟩
    intro p hp
    cases hp
  | cons p0 rest ih =>
    intro st hids hrem hsse henq hqid hqse hpd
    rw [List.foldl_cons]
    have hl2 : (p0 :: rest).length = rest.length + 1 := List.length_cons _ _
    by_cases hz : st.rem p0.1 = 0
    · have hstep : seedOne score st p0 =
          { st with
            queue := (score p0.1, p0.1) :: st.queue,
            enqueued := insert p0.1 st.enqueued } := by
        rw [seedOne, if_pos hz]
      rw [hstep]
      set st1 : SchedState :=
        { st with
          queue := (score p0.1, p0.1) :: st.queue,
          enqueued := insert p0.1 st.enqueued } with hst1
      have hrem1 : RemInv ir st1 := fun u => hrem u
      have hsse1 : SchedSubEnqInv st1 := fun u hu =>
        Finset.mem_insert_of_mem (hsse u hu)
      have henq1 : EnqueuedInv st1 := by
        intro u hu
        have hu' : u ∈ insert p0.1 st.enqueued := hu
        rcases Finset.mem_insert.1 hu' with rfl | hu''
        · refine Or.inr ?_
          show p0.1 ∈ ((score p0.1, p0.1) :: st.queue).map (fun y => y.2)
          simp
        · rcases henq u hu'' with hs | hqm
          · exact Or.inl hs
          · refine Or.inr ?_
            show u ∈ ((score p0.1, p0.1) :: st.queue).map (fun y => y.2)
            rw [List.map_cons]
            exact List.mem_cons_of_mem _ hqm
      have hqid1 : QueueIdsInv ir st1 := by
        intro x hx
        have hx' : x ∈ (score p0.1, p0.1) :: st.queue := hx
        rcases List.mem_cons.1 hx' with rfl | hx''
        · exact hids p0 (List.mem_cons_self p0 rest)
        · exact hqid x hx''
      have hqse1 : QueueSubEnqInv st1 := by
        intro x hx
        have hx' : x ∈ (score p0.1, p0.1) :: st.queue := hx
        rcases List.mem_cons.1 hx' with rfl | hx''
        · exact Finset.mem_insert_self _ _
        · exact Finset.mem_insert_of_mem (hqse x hx'')
      have hpd1 : PredsDoneInv ir st1 := by
        intro u hu y hy
        have hu' : u ∈ insert p0.1 st.enqueued := hu
        rcases Finset.mem_insert.1 hu' with rfl | hu''
        · have h0 : remTarget ir st.scheduled p0.1 = 0 := by
            have hru := hrem p0.1
            rw [← hru]
            exact hz
          show y ∈ st.scheduled
          exact remTarget_eq_zero h0 y hy
        · exact hpd u hu'' y hy
      obtain ⟨c1, c2, c3, c4, c5, c6, c7, c8⟩ :=
        ih st1 (fun q hq => hids q (List.mem_cons_of_mem p0 hq))
          hrem1 hsse1 henq1 hqid1 hqse1 hpd1
      refine ⟨c1, c2, c3, c4, c5, ?_, ?_, ?_⟩
      · intro q hq hq0
        rcases List.mem_cons.1 hq with rfl | hq'
        · exact c7 q.1 (Finset.mem_insert_self _ _)
        · exact c6 q hq' hq0
      · intro u hu
        exact c7 u (Finset.mem_insert_of_mem hu)
      · have hq1len : st1.queue.length = st.queue.length + 1 := List.length_cons _ _
        omega
    · have hstep : seedOne score st p0 = st := by
        rw [seedOne, if_neg hz]
      rw [hstep]
      obtain ⟨c1, c2, c3, c4, c5, c6, c7, c8⟩ :=
        ih st (fun q hq => hids q (List.mem_cons_of_mem p0 hq))
          hrem hsse henq hqid hqse hpd
      refine ⟨c1, c2, c3, c4, c5, ?_, c7, by omega⟩
      intro q hq hq0
      rcases List.mem_cons.1 hq with rfl | hq'
      · exact absurd hq0 hz
      · exact c6 q hq' hq0

theorem seedState_depInv (ir : OperatorScheduledIR) (score : String → ℚ) :
    DepInv ir (seedState ir.nodes (sysDeps ir) score) ∧
    loopMeasure ir (seedState ir.nodes (sysDeps ir) score) ≤ 2 * ir.nodes.length := by
  set st0 : SchedState :=
    { queue := [], scheduled := ∅, enqueued := ∅,
      rem := fun v => ((sysDeps ir v).length : ℤ),
      hwFin := fun _ => 0, opFin := fun _ => 0, entries := [] } with hst0
  have hsf : seedState ir.nodes (sysDeps ir) score =
      ir.nodes.foldl (seedOne score) st0 := rfl
  rw [hsf]
  obtain ⟨hE, hS, hW, hO, hR⟩ := seed_fold_fields ir.nodes score st0
  have hrem0 : RemInv ir st0 := by
    intro u
    show ((sysDeps ir u).length : ℤ) = remTarget ir (∅ : Finset String) u
    rw [remTarget]
    simp
  have hvac : ∀ u : String, u ∉ (∅ : Finset String) := fun u => Finset.not_mem_empty u
  obtain ⟨c1, c2, c3, c4, c5, c6, c7, c8⟩ :=
    seed_fold_depInv ir score ir.nodes st0
      (fun p hp => List.mem_map_of_mem (fun q => q.1) hp)
      hrem0
      (fun u hu => absurd hu (hvac u))
      (fun u hu => absurd hu (hvac u))
      (fun x hx => absurd hx (List.not_mem_nil x))
      (fun x hx => absurd hx (List.not_mem_nil x))
      (fun u hu => absurd hu (hvac u))
  constructor
  · refine ⟨?_, ?_, ?_, c1, c2, c3, c4, c5, ?_⟩
    · intro u hu
      rw [hS] at hu
      exact absurd hu (hvac u)
    · intro u
      rw [hR, hS]
      exact hrem0 u
    · intro u hu hz
      rw [hR] at hz
      obtain ⟨pp, hpp, rfl⟩ := List.mem_map.1 hu
      exact c6 pp hpp hz
    · intro e he ec hec
      rw [hE] at hec
      exact absurd hec (List.not_mem_nil ec)
  · rw [loopMeasure]
    have h00 : st0.queue.length = 0 := rfl
    have hsub : (((idsOf ir).toFinset \
        (ir.nodes.foldl (seedOne score) st0).enqueued).card : ℕ) ≤
        (idsOf ir).toFinset.card :=
      Finset.card_le_card Finset.sdiff_subset
    have htf : (idsOf ir).toFinset.card ≤ (idsOf ir).length :=
      List.toFinset_card_le _
    have hlm : (idsOf ir).length = ir.nodes.length := by
      rw [idsOf, List.length_map]
    omega

/-- C3: for every `OperatorScheduledIR` whose filtered edge relation
(only edges with both endpoints in the node set are kept) is acyclic —
witnessed by a topological ranking — every kept edge `(p, c)` is honoured
by the returned `SystemSchedule`: any entry carrying the producer id
finishes no later than any entry carrying the consumer id starts.  This
holds for all edges and all entries, not just a sample. -/
theorem dags_dependency_ordering (alpha beta : ℚ) (ir : OperatorScheduledIR)
    (rank : String → ℕ) (htopo : isTopoRank ir rank) :
    ∀ e ∈ sysFilteredEdges ir,
      ∀ ep ∈ (systemSchedule alpha beta ir).entries,
        ∀ ec ∈ (systemSchedule alpha beta ir).entries,
          ep.op_id = e.1 → ec.op_id = e.2 →
          ep.start_cycle + ep.duration ≤ ec.start_cycle := by
  intro e he ep hep ec hec hp1 hc2
  by_cases hemp : ir.nodes.isEmpty
  · rw [systemSchedule, if_pos hemp] at hep
    exact absurd hep (List.not_mem_nil ep)
  · have hseed := seedState_depInv ir (dagsScore alpha beta ir)
    have hloop := mainLoop_depInv ir (dagsScore alpha beta ir)
      (2 * ir.nodes.length + 1)
      (seedState ir.nodes (sysDeps ir) (dagsScore alpha beta ir)) hseed.1
      (le_trans hseed.2 (by omega))
    have hall := drained_all_scheduled ir rank htopo hloop.2 hloop.1
    have hfb : fallbackSweep ir.nodes
        (mainLoop ir.nodes (sysDeps ir) (sysSuccs ir) (dagsScore alpha beta ir)
          (2 * ir.nodes.length + 1)
          (seedState ir.nodes (sysDeps ir) (dagsScore alpha beta ir))) =
        mainLoop ir.nodes (sysDeps ir) (sysSuccs ir) (dagsScore alpha beta ir)
          (2 * ir.nodes.length + 1)
          (seedState ir.nodes (sysDeps ir) (dagsScore alpha beta ir)) :=
      fallbackSweep_eq_self ir.nodes _
        (fun q hq => hall q.1 (List.mem_map_of_mem (fun x => x.1) hq))
    have hentries : (systemSchedule alpha beta ir).entries =
        (mainLoop ir.nodes (sysDeps ir) (sysSuccs ir) (dagsScore alpha beta ir)
          (2 * ir.nodes.length + 1)
          (seedState ir.nodes (sysDeps ir) (dagsScore alpha beta ir))).entries := by
      rw [systemSchedule, if_neg hemp]
      dsimp only
      rw [hfb]
    rw [hentries] at hep hec
    have hcnt := mainLoop_countInv ir (dagsScore alpha beta ir)
      (2 * ir.nodes.length + 1) _ (seedState_countInv ir (dagsScore alpha beta ir))
    have hnodup : ((mainLoop ir.nodes (sysDeps ir) (sysSuccs ir)
        (dagsScore alpha beta ir) (2 * ir.nodes.length + 1)
        (seedState ir.nodes (sysDeps ir) (dagsScore alpha beta ir))).entries.map
          (fun x => x.op_id)).Nodup := by
      rw [List.nodup_iff_count_le_one]
      intro a
      by_cases ha : a ∈ idsOf ir
      · rw [hcnt.1 a ha]
        split <;> omega
      · rw [hcnt.2 a ha]
        omega
    have hord : OrdInv ir (mainLoop ir.nodes (sysDeps ir) (sysSuccs ir)
        (dagsScore alpha beta ir) (2 * ir.nodes.length + 1)
        (seedState ir.nodes (sysDeps ir) (dagsScore alpha beta ir))) :=
      hloop.1.2.2.2.2.2.2.2.2
    obtain ⟨x, hx, hx1, hxle⟩ := hord e he ec hec hc2
    have hxep : x = ep :=
      List.inj_on_of_nodup_map hnodup hx hep (hx1.trans hp1.symm)
    rw [← hxep]
    exact hxle

/-- C3 witness: the dependency-ordering theorem applied to the two-node
chain `p → q`, whose topological ranking discharges the acyclicity
hypothesis by evaluation. -/
theorem dags_dependency_ordering_witness :
    isTopoRank chainIR chainRank ∧
    (∀ e ∈ sysFilteredEdges chainIR,
      ∀ ep ∈ (systemSchedule 1 1 chainIR).entries,
        ∀ ec ∈ (systemSchedule 1 1 chainIR).entries,
          ep.op_id = e.1 → ec.op_id = e.2 →
          ep.start_cycle + ep.duration ≤ ec.start_cycle) :=
  ⟨by unfold isTopoRank; with_unfolding_all decide,
   dags_dependency_ordering 1 1 chainIR chainRank
     (by unfold isTopoRank; with_unfolding_all decide)⟩

/-! ### Claim C5 (successor counts) -/

theorem foldl_max_init_le_nat (l : List ℕ) (a : ℕ) : a ≤ l.foldl max a := by
  induction l generalizing a with
  | nil => exact le_refl a
  | cons x xs ih => exact le_trans (le_max_left a x) (ih (max a x))

theorem foldl_max_mem_le_nat {l : List ℕ} {x : ℕ} (h : x ∈ l) (a : ℕ) :
    x ≤ l.foldl max a := by
  induction l generalizing a with
  | nil => cases h
  | cons y ys ih =>
    rcases List.mem_cons.1 h with rfl | h'
    · exact le_trans (le_max_right a x) (foldl_max_init_le_nat ys _)
    · exact ih h' _

theorem rank_lt_rankBoundOf (rank : String → ℕ) {V : List String} {v : String}
    (hv : v ∈ V) : rank v < rankBoundOf V rank := by
  rw [rankBoundOf]
  have h1 : rank v ≤ V.foldl (fun m x => max m (rank x)) 0 := by
    rw [← List.foldl_map rank max V 0]
    exact foldl_max_mem_le_nat (List.mem_map_of_mem rank hv) 0
  omega

theorem pathCountF_nil {succs : String → List String} {v : String}
    (h : succs v = []) : ∀ f, pathCountF succs f v = 0 := by
  intro f
  cases f with
  | zero => rfl
  | succ g => simp [pathCountF, h]

theorem pathCountF_stable (succs : String → List String) (rank : String → ℕ)
    (B : ℕ) (hedge : ∀ x y, y ∈ succs x → rank x < rank y ∧ rank y < B) :
    ∀ (n : ℕ) (v : String) (f1 f2 : ℕ),
      B - rank v ≤ n → B - rank v ≤ f1 → B - rank v ≤ f2 →
      pathCountF succs f1 v = pathCountF succs f2 v := by
  intro n
  induction n with
  | zero =>
    intro v f1 f2 hn _ _
    have hnil : succs v = [] := by
      rw [List.eq_nil_iff_forall_not_mem]
      intro y hy
      have hy' := hedge v y hy
      omega
    rw [pathCountF_nil hnil, pathCountF_nil hnil]
  | succ m ih =>
    intro v f1 f2 hn h1 h2
    by_cases hz : B - rank v = 0
    · have hnil : succs v = [] := by
        rw [List.eq_nil_iff_forall_not_mem]
        intro y hy
        have hy' := hedge v y hy
        omega
      rw [pathCountF_nil hnil, pathCountF_nil hnil]
    · rcases f1 with _ | a
      · omega
      rcases f2 with _ | b
      · omega
      show ((succs v).map (fun u => 1 + pathCountF succs a u)).sum =
        ((succs v).map (fun u => 1 + pathCountF succs b u)).sum
      congr 1
      refine List.map_congr_left ?_
      intro y hy
      have hey := hedge v y hy
      have heq : pathCountF succs a y = pathCountF succs b y :=
        ih y a b (by omega) (by omega) (by omega)
      rw [heq]

theorem dfsCount_spec (succs : String → List String) (rank : String → ℕ) (B : ℕ)
    (hedge : ∀ x y, y ∈ succs x → rank x < rank y ∧ rank y < B) :
    ∀ (f : ℕ) (u : String) (s : DFSState) (P : Finset String),
      rank u < B → B - rank u ≤ f →
      (∀ p ∈ P, rank p < rank u) →
      (∀ x, s.visited x = true →
        x ∈ P ∨ s.counts x = pathCountF succs (B - rank x) x) →
      (dfsCount succs f u s).1 = pathCountF succs (B - rank u) u ∧
      (∀ x, (dfsCount succs f u s).2.visited x = true →
        x ∈ P ∨ (dfsCount succs f u s).2.counts x =
          pathCountF succs (B - rank x) x) ∧
      (∀ x, s.visited x = true → (dfsCount succs f u s).2.visited x = true) ∧
      (dfsCount succs f u s).2.visited u = true := by
  intro f
  induction f with
  | zero =>
    intro u s P hu hf _ _
    omega
  | succ g ih =>
    intro u s P hu hf hP hA
    by_cases hv : s.visited u = true
    · have hchar : dfsCount succs (g + 1) u s = (s.counts u, s) := by
        simp only [dfsCount]
        rw [if_pos hv]
      rw [hchar]
      rcases hA u hv with hPu | hc
      · exact absurd (hP u hPu) (lt_irrefl _)
      · exact ⟨hc, hA, fun x hx => hx, hv⟩
    · have hchild : ∀ (l : List String) (acc : ℤ) (t : DFSState),
          (∀ y ∈ l, rank u < rank y ∧ rank y < B) →
          (∀ x, t.visited x = true → x ∈ insert u P ∨
            t.counts x = pathCountF succs (B - rank x) x) →
          (dfsChildren (dfsCount succs g) l acc t).1 =
            acc + (l.map (fun y => 1 + pathCountF succs (B - rank y) y)).sum ∧
          (∀ x, (dfsChildren (dfsCount succs g) l acc t).2.visited x = true →
            x ∈ insert u P ∨ (dfsChildren (dfsCount succs g) l acc t).2.counts x =
              pathCountF succs (B - rank x) x) ∧
          (∀ x, t.visited x = true →
            (dfsChildren (dfsCount succs g) l acc t).2.visited x = true) := by
        intro l
        induction l with
        | nil =>
          intro acc t _ hA'
          exact ⟨by simp [dfsChildren], hA', fun x hx => hx⟩
        | cons y ys ihl =>
          intro acc t hl hA'
          have hy := hl y (List.mem_cons_self y ys)
          have hPy : ∀ p ∈ insert u P, rank p < rank y := by
            intro p hp
            rcases Finset.mem_insert.1 hp with rfl | hp'
            · exact hy.1
            · have := hP p hp'
              omega
          obtain ⟨hval, hstate, hmono, hself⟩ :=
            ih y t (insert u P) hy.2 (by omega) hPy hA'
          have hcons : dfsChildren (dfsCount succs g) (y :: ys) acc t =
              dfsChildren (dfsCount succs g) ys
                (acc + 1 + (dfsCount succs g y t).1) (dfsCount succs g y t).2 := rfl
          rw [hcons]
          obtain ⟨v1, v2, v3⟩ := ihl (acc + 1 + (dfsCount succs g y t).1)
            (dfsCount succs g y t).2
            (fun z hz => hl z (List.mem_cons_of_mem y hz)) hstate
          refine ⟨?_, v2, fun x hx => v3 x (hmono x hx)⟩
          rw [v1, hval, List.map_cons, List.sum_cons]
          ring
      simp only [dfsCount]
      rw [if_neg hv]
      have hm : ∀ y ∈ succs u, rank u < rank y ∧ rank y < B :=
        fun y hy => hedge u y hy
      have hA1 : ∀ x,
          (if x = u then true else s.visited x) = true → x ∈ insert u P ∨
            s.counts x = pathCountF succs (B - rank x) x := by
        intro x hx
        by_cases hxu : x = u
        · exact Or.inl (hxu ▸ Finset.mem_insert_self u P)
        · rw [if_neg hxu] at hx
          rcases hA x hx with hPx | hc
          · exact Or.inl (Finset.mem_insert_of_mem hPx)
          · exact Or.inr hc
      obtain ⟨w1, w2, w3⟩ := hchild (succs u) 0
        { s with visited := fun x => if x = u then true else s.visited x } hm hA1
      set d := dfsChildren (dfsCount succs g) (succs u)
        0 { s with visited := fun x => if x = u then true else s.visited x } with hd
      have hval : d.1 = pathCountF succs (B - rank u) u := by
        rw [w1]
        obtain ⟨c, hc⟩ : ∃ c, B - rank u = c + 1 := ⟨B - rank u - 1, by omega⟩
        rw [hc, zero_add]
        show _ = ((succs u).map (fun y => 1 + pathCountF succs c y)).sum
        congr 1
        refine List.map_congr_left ?_
        intro y hy
        have hey := hedge u y hy
        have hst : pathCountF succs (B - rank y) y = pathCountF succs c y :=
          pathCountF_stable succs rank B hedge (B - rank y) y _ _
            (le_refl _) (le_refl _) (by omega)
        rw [hst]
      refine ⟨hval, ?_, ?_, ?_⟩
      · intro x hx
        have hx' : d.2.visited x = true := hx
        rcases w2 x hx' with hins | hcx
        · rcases Finset.mem_insert.1 hins with hxu | hxP
          · refine Or.inr ?_
            show (if x = u then d.1 else d.2.counts x) =
              pathCountF succs (B - rank x) x
            rw [if_pos hxu, hxu]
            exact hval
          · exact Or.inl hxP
        · by_cases hxu : x = u
          · refine Or.inr ?_
            show (if x = u then d.1 else d.2.counts x) =
              pathCountF succs (B - rank x) x
            rw [if_pos hxu, hxu]
            exact hval
          · refine Or.inr ?_
            show (if x = u then d.1 else d.2.counts x) =
              pathCountF succs (B - rank x) x
            rw [if_neg hxu]
            exact hcx
      · intro x hx
        have hx1 : (if x = u then true else s.visited x) = true := by
          split
          · rfl
          · exact hx
        exact w3 x hx1
      · have hs1u : (if u = u then true else s.visited u) = true := by
          rw [if_pos rfl]
        exact w3 u hs1u

theorem computeSuccessorCounts_spec (succs : String → List String)
    (rank : String → ℕ) (V : List String)
    (hedge : ∀ x y, y ∈ succs x → rank x < rank y ∧ rank y < rankBoundOf V rank)
    (hB : rankBoundOf V rank ≤ V.length + 1) :
    ∀ v ∈ V, computeSuccessorCounts V succs v =
      pathCountF succs (rankBoundOf V rank - rank v) v := by
  have key : ∀ (l : List String) (st : DFSState),
      (∀ v ∈ l, v ∈ V) →
      (∀ x, st.visited x = true →
        st.counts x = pathCountF succs (rankBoundOf V rank - rank x) x) →
      (∀ x, (l.foldl (fun t v => (dfsCount succs (V.length + 1) v t).2) st).visited x
          = true →
        (l.foldl (fun t v => (dfsCount succs (V.length + 1) v t).2) st).counts x =
          pathCountF succs (rankBoundOf V rank - rank x) x) ∧
      (∀ x, st.visited x = true →
        (l.foldl (fun t v => (dfsCount succs (V.length + 1) v t).2) st).visited x
          = true) ∧
      (∀ v ∈ l,
        (l.foldl (fun t v => (dfsCount succs (V.length + 1) v t).2) st).visited v
          = true) := by
    intro l
    induction l with
    | nil =>
      intro st _ hInv
      exact ⟨hInv, fun x hx => hx, fun v hv => absurd hv (List.not_mem_nil v)⟩
    | cons v0 rest ihl =>
      intro st hsub hInv
      have hv0 : v0 ∈ V := hsub v0 (List.mem_cons_self v0 rest)
      have hu : rank v0 < rankBoundOf V rank := rank_lt_rankBoundOf rank hv0
      obtain ⟨d1, d2, d3, d4⟩ := dfsCount_spec succs rank (rankBoundOf V rank) hedge
        (V.length + 1) v0 st (∅ : Finset String) hu (by omega)
        (fun p hp => absurd hp (Finset.not_mem_empty p))
        (fun x hx => Or.inr (hInv x hx))
      have hInv' : ∀ x, (dfsCount succs (V.length + 1) v0 st).2.visited x = true →
          (dfsCount succs (V.length + 1) v0 st).2.counts x =
            pathCountF succs (rankBoundOf V rank - rank x) x := by
        intro x hx
        rcases d2 x hx with hemp | hc
        · exact absurd hemp (Finset.not_mem_empty x)
        · exact hc
      have hfold : (v0 :: rest).foldl
            (fun t v => (dfsCount succs (V.length + 1) v t).2) st
          = rest.foldl (fun t v => (dfsCount succs (V.length + 1) v t).2)
              (dfsCount succs (V.length + 1) v0 st).2 := rfl
      rw [hfold]
      obtain ⟨e1, e2, e3⟩ := ihl (dfsCount succs (V.length + 1) v0 st).2
        (fun v hv => hsub v (List.mem_cons_of_mem v0 hv)) hInv'
      refine ⟨e1, fun x hx => e2 x (d3 x hx), ?_⟩
      intro v hv
      rcases List.mem_cons.1 hv with rfl | hv'
      · exact e2 _ d4
      · exact e3 v hv'
  intro v hv
  have hkey := key V
    { visited := fun _ => false, counts := fun _ => 0 }
    (fun x hx => hx)
    (fun x hx => absurd hx Bool.false_ne_true)
  exact hkey.1 v (hkey.2.2 v hv)

/-- C5 counterexample: `computeSuccessorCounts` accumulates
`1 + count(child)` once per path, not once per distinct descendant: on
the diamond graph `da → {db, dc} → dd` the heuristic assigns `da` the
value 4 although `da` has exactly 3 distinct transitive descendants, so
the claim fails for this input. -/
theorem successor_counts_counterexample :
    sysSuccCounts diamondIR "da" = 4 ∧
    (distinctDescendants (sysSuccs diamondIR) 4 "da").card = 3 := by
  constructor
  · with_unfolding_all decide
  · with_unfolding_all decide

/-- C5 as amended: on every acyclic successors graph — witnessed by a
topological ranking whose bound stays within the DFS fuel
`|nodes| + 1` — the heuristic value of a node is the number of distinct
nonempty paths leaving it (`pathCountF`), not its number of distinct
descendants. -/
theorem successor_counts_eq_path_counts (ir : OperatorScheduledIR)
    (rank : String → ℕ) (htopo : isTopoRank ir rank)
    (hB : rankBoundOf (idsOf ir) rank ≤ (idsOf ir).length + 1) :
    ∀ v ∈ idsOf ir, sysSuccCounts ir v =
      pathCountF (sysSuccs ir) (rankBoundOf (idsOf ir) rank - rank v) v := by
  have hedge : ∀ x y, y ∈ sysSuccs ir x →
      rank x < rank y ∧ rank y < rankBoundOf (idsOf ir) rank := by
    intro x y hy
    have he := mem_sysSuccs.1 hy
    exact ⟨htopo (x, y) he,
      rank_lt_rankBoundOf rank (sysFilteredEdges_mem_ids he).2⟩
  intro v hv
  rw [sysSuccCounts]
  exact computeSuccessorCounts_spec (sysSuccs ir) rank (idsOf ir) hedge hB v hv

/-- C5 witness: the amended theorem applied to the diamond graph with
its topological ranking; both hypotheses are discharged by
evaluation. -/
theorem successor_counts_eq_path_counts_witness :
    isTopoRank diamondIR diamondRank ∧
    rankBoundOf (idsOf diamondIR) diamondRank ≤ (idsOf diamondIR).length + 1 ∧
    (∀ v ∈ idsOf diamondIR, sysSuccCounts diamondIR v =
      pathCountF (sysSuccs diamondIR)
        (rankBoundOf (idsOf diamondIR) diamondRank - diamondRank v) v) :=
  ⟨by unfold isTopoRank; with_unfolding_all decide,
   by with_unfolding_all decide,
   successor_counts_eq_path_counts diamondIR diamondRank
     (by unfold isTopoRank; with_unfolding_all decide)
     (by with_unfolding_all decide)⟩

end RenderSim
